import Mathlib

/-!
Verification development for the orbital-correction core of PyRate
(pyrate/orbital.py).

The embedding works over exact rationals (ℚ) in place of float32, models the
NaN no-data marker as `Option ℚ` (with `none` = NaN, propagating through
subtraction as IEEE NaN does), represents rasters flattened row-major as
lists, and turns the in-place mutation of interferogram phase data into
explicit state passing: each correction returns the updated interferograms,
and raising `OrbitalError` becomes returning `Except.error`, so an error
result means no interferogram was modified.  The external numerical solvers
(scipy.linalg.lstsq and numpy.linalg.pinv) are passed in as function
parameters; theorems that need their defining property assume it as a
hypothesis (`IsLstsqSol`).
-/

-- constants (module-level strings in orbital.py)

def INDEPENDENT_METHOD : String := "INDEPENDENT_METHOD"

def NETWORK_METHOD : String := "NETWORK_METHOD"

def PLANAR : String := "PLANAR"

def QUADRATIC : String := "QUADRATIC"

def PART_CUBIC : String := "PART_CUBIC"

/-- An interferogram, as consumed by the orbital-correction core: raster
dimensions, pixel sizes, master/slave epoch identifiers (represented as
naturals), and the phase raster flattened row-major, with `none` standing
for the NaN no-data marker. -/
structure Ifg where
  nrows : ℕ
  ncols : ℕ
  x_size : ℚ
  y_size : ℚ
  master : ℕ
  slave : ℕ
  phase_data : List (Option ℚ)
deriving DecidableEq, Repr, Inhabited

def Ifg.num_cells (i : Ifg) : ℕ := i.nrows * i.ncols

/-- Modelled from the spec: helper for the epoch-indexing collaborator of the
missing `algorithm` module; keeps the first occurrence of each value, in
order of first appearance. -/
def uniqueFirst : List ℕ → List ℕ
  | [] => []
  | d :: rest => d :: (uniqueFirst rest).filter (fun e => e ≠ d)

/-- Modelled from the spec: `get_all_epochs` of the missing `algorithm`
module returns the combined master-then-slave epoch sequence of the given
interferograms. -/
def get_all_epochs (ifgs : List Ifg) : List ℕ :=
  ifgs.map Ifg.master ++ ifgs.map Ifg.slave

/-- Modelled from the spec: `get_epoch_count` of the missing `algorithm`
module counts the distinct epochs across the combined master-then-slave
sequence. -/
def get_epoch_count (ifgs : List Ifg) : ℕ :=
  (uniqueFirst (get_all_epochs ifgs)).length

/-- Modelled from the spec: `master_slave_ids` of the missing `algorithm`
module assigns each distinct epoch a dense index in `[0, nepochs)`, by order
of first occurrence across the given (master-then-slave) date sequence. -/
def master_slave_ids (dates : List ℕ) : ℕ → ℕ :=
  fun d => (uniqueFirst dates).indexOf d

/-- The `OrbitalError` conditions raised by orbital.py, one constructor per
raise site (the formatted message arguments are kept as constructor data). -/
inductive OrbitalError where
  | invalidCorrectionDegree (degree : String)
  | invalidModelDegree (degree : String)
  | invalidDegreeArgument
  | invalidIfgNumber (n : ℕ)
  | mismatchedMlookedCount
  | mismatchedMlookedTypes
  | unknownMethod (method : String)
  | indexError
deriving DecidableEq, Repr

instance {ε α : Type} [DecidableEq ε] [DecidableEq α] :
    DecidableEq (Except ε α) := fun x y =>
  match x, y with
  | Except.ok a, Except.ok b => decidable_of_iff (a = b) (by simp)
  | Except.ok _, Except.error _ => isFalse (fun hc => Except.noConfusion hc)
  | Except.error _, Except.ok _ => isFalse (fun hc => Except.noConfusion hc)
  | Except.error e, Except.error f => decidable_of_iff (e = f) (by simp)

/-- get_num_params of orbital.py: number of model parameters for a degree,
plus one when the offset flag is set (the Python default `offset=None`
behaves as `false` here). -/
def get_num_params (degree : String) (offset : Bool := false) :
    Except OrbitalError ℕ := do
  let nparams ←
    if degree = PLANAR then pure 2
    else if degree = QUADRATIC then pure 5
    else if degree = PART_CUBIC then pure 6
    else throw (OrbitalError.invalidModelDegree degree)
  pure (if offset then nparams + 1 else nparams)

/-- Row p (row-major pixel order) of the design matrix of orbital.py: with
x = (p mod ncols) * x_size and y = (p / ncols) * y_size, the basis terms of
the chosen degree, plus a trailing 1 when offset is set. -/
def designRow (ifg : Ifg) (degree : String) (offset : Bool) (p : ℕ) :
    List ℚ :=
  let x : ℚ := ((p % ifg.ncols : ℕ) : ℚ) * ifg.x_size
  let y : ℚ := ((p / ifg.ncols : ℕ) : ℚ) * ifg.y_size
  (if degree = PLANAR then [x, y]
   else if degree = QUADRATIC then [x ^ 2, y ^ 2, x * y, x, y]
   else [x * y ^ 2, x ^ 2, y ^ 2, x * y, x, y]) ++
  (if offset then [(1 : ℚ)] else [])

def get_design_matrix (ifg : Ifg) (degree : String) (offset : Bool) :
    Except OrbitalError (List (List ℚ)) := do
  if degree ∉ [PLANAR, QUADRATIC, PART_CUBIC] then
    throw OrbitalError.invalidDegreeArgument
  pure ((List.range ifg.num_cells).map (designRow ifg degree offset))

/-- Slice assignment `row[cs : cs + vals.length] = vals` on one matrix row. -/
def overwriteSlice (row : List ℚ) (cs : ℕ) (vals : List ℚ) : List ℚ :=
  row.mapIdx (fun j v =>
    if cs ≤ j ∧ j < cs + vals.length then vals.getD (j - cs) 0 else v)

/-- Block assignment `ndm[rs : rs + block.length, cs : cs + ncoef] = block`. -/
def writeBlock (ndm : List (List ℚ)) (rs : ℕ) (block : List (List ℚ))
    (cs : ℕ) : List (List ℚ) :=
  ndm.mapIdx (fun r row =>
    if rs ≤ r ∧ r < rs + block.length then
      overwriteSlice row cs (block.getD (r - rs) []) else row)

/-- Column assignment `ndm[rs : rs + nrows, c] = 1` (the offset columns). -/
def writeOnesCol (ndm : List (List ℚ)) (rs nrows c : ℕ) : List (List ℚ) :=
  ndm.mapIdx (fun r row =>
    if rs ≤ r ∧ r < rs + nrows then overwriteSlice row c [1] else row)

def negMat (mat : List (List ℚ)) : List (List ℚ) :=
  mat.map (fun row => row.map (fun v => -v))

/-- Entry accessor for a list-of-rows matrix (0 outside the stored area). -/
def entryAt (ndm : List (List ℚ)) (r c : ℕ) : ℚ :=
  (ndm.getD r []).getD c 0

/-- Loop body of get_network_design_matrix: place -basis at the master epoch
block and +basis at the slave epoch block of row-block i, then the offset
ones column when requested. -/
def networkStep (tmp : List (List ℚ)) (ids : ℕ → ℕ) (ncoef offset_col : ℕ)
    (offset : Bool) (ndm : List (List ℚ)) (pr : ℕ × Ifg) : List (List ℚ) :=
  let i := pr.1
  let ifg := pr.2
  let rs := i * ifg.num_cells
  let m := ids ifg.master * ncoef
  let s := ids ifg.slave * ncoef
  let ndm1 := writeBlock ndm rs (negMat tmp) m
  let ndm2 := writeBlock ndm1 rs tmp s
  if offset then writeOnesCol ndm2 rs ifg.num_cells (offset_col + i)
  else ndm2

/-- get_network_design_matrix of orbital.py: a zero matrix of shape
[num_cells * nifgs, ncoef * nepochs (+ nifgs when offset)], filled per
interferogram with -basis in the master epoch block, +basis in the slave
epoch block, and a ones column per interferogram when offset is set. -/
def get_network_design_matrix (ifgs : List Ifg) (degree : String)
    (offset : Bool) : Except OrbitalError (List (List ℚ)) := do
  if degree ∉ [PLANAR, QUADRATIC, PART_CUBIC] then
    throw OrbitalError.invalidDegreeArgument
  match ifgs with
  | [] => throw (OrbitalError.invalidIfgNumber 0)
  | i0 :: _ =>
    let nifgs := ifgs.length
    let nepochs := get_epoch_count ifgs
    let ncoef ← get_num_params degree
    let ncolsTotal := ncoef * nepochs + (if offset then nifgs else 0)
    let dates := ifgs.map Ifg.master ++ ifgs.map Ifg.slave
    let ids := master_slave_ids dates
    let offset_col := nepochs * ncoef
    let tmp ← get_design_matrix i0 degree false
    let ndm0 := List.replicate (i0.num_cells * nifgs)
      (List.replicate ncolsTotal (0 : ℚ))
    pure (ifgs.enum.foldl (networkStep tmp ids ncoef offset_col offset) ndm0)

def dotL (xs ys : List ℚ) : ℚ := (List.zipWith (fun a b => a * b) xs ys).sum

def matVec (mat : List (List ℚ)) (v : List ℚ) : List ℚ :=
  mat.map (fun row => dotL row v)

/-- Residual sum of squares of a candidate model for the system dm x = fd. -/
def rss (dm : List (List ℚ)) (fd model : List ℚ) : ℚ :=
  (List.zipWith (fun a b => (a - b) ^ 2) (matVec dm model) fd).sum

/-- Specification of scipy.linalg.lstsq: the returned model minimises the
residual sum of squares. -/
def IsLstsqSol (dm : List (List ℚ)) (fd model : List ℚ) : Prop :=
  ∀ other : List ℚ, rss dm fd model ≤ rss dm fd other

/-- numpy.median of the (already NaN-filtered) values: mean of the two middle
elements of the ascending sort; NaN (here `none`) on an empty input. -/
def medianQ (xs : List ℚ) : Option ℚ :=
  match xs with
  | [] => none
  | _ =>
    let s := xs.mergeSort (fun a b => a ≤ b)
    let n := s.length
    if n % 2 = 1 then some (s.getD (n / 2) 0)
    else some ((s.getD (n / 2 - 1) 0 + s.getD (n / 2) 0) / 2)

/-- Boolean-mask row filter `dm[~isnan(vphase)]`. -/
def maskRows (vphase : List (Option ℚ)) (dm : List (List ℚ)) :
    List (List ℚ) :=
  ((vphase.zip dm).filter (fun pr => pr.1.isSome)).map Prod.snd

/-- Pointwise `phase - correction` with NaN (`none`) propagation. -/
def phaseSub (phase : List (Option ℚ)) (corr : List ℚ) : List (Option ℚ) :=
  List.zipWith (fun ph c => Option.map (fun v => v - c) ph) phase corr

/-- NaN-propagating subtraction of optional values. -/
def optSub : Option ℚ → Option ℚ → Option ℚ
  | some a, some b => some (a - b)
  | _, _ => none

/-- _independent_correction of orbital.py: least-squares fit of the design
matrix against the NaN-masked phase, then in-place subtraction of the
forward model (returned here as the updated interferogram). -/
def _independent_correction (solver : List (List ℚ) → List ℚ → List ℚ)
    (ifg : Ifg) (degree : String) (offset : Bool) : Except OrbitalError Ifg := do
  let vphase := ifg.phase_data
  let dm ← get_design_matrix ifg degree offset
  let tmp := maskRows vphase dm
  let fd := vphase.filterMap id
  let model := solver tmp fd
  let correction := matVec dm model
  pure { ifg with phase_data := phaseSub vphase correction }

/-- _network_correction of orbital.py: one joint solve over the stacked
NaN-masked phases of `src_ifgs` (the mlooked ifgs when given), per-epoch
coefficient blocks of width ncoef, then per-interferogram subtraction of
basis . (coef[slave] - coef[master]), plus the median offset when
requested.  The numpy reshape calls are identity on this flattened
representation. -/
def _network_correction (netSolver : List (List ℚ) → List ℚ → List ℚ)
    (ifgs : List Ifg) (degree : String) (offset : Bool)
    (m_ifgs : Option (List Ifg) := none) : Except OrbitalError (List Ifg) := do
  let src_ifgs := match m_ifgs with | none => ifgs | some m => m
  let vphase := (src_ifgs.map Ifg.phase_data).flatten
  let dm ← get_network_design_matrix src_ifgs degree offset
  let tmp := maskRows vphase dm
  let fd := vphase.filterMap id
  let model := netSolver tmp fd
  let ncoef ← get_num_params degree
  let ids := master_slave_ids (get_all_epochs ifgs)
  let coefs := (List.range (get_epoch_count ifgs)).map
    (fun k => (model.drop (k * ncoef)).take ncoef)
  match ifgs with
  | [] => throw OrbitalError.indexError
  | i0 :: _ => do
    let dm2 ← get_design_matrix i0 degree false
    pure (ifgs.map (fun i =>
      let orb := matVec dm2 (List.zipWith (fun a b => a - b)
        (coefs.getD (ids i.slave) []) (coefs.getD (ids i.master) []))
      if offset then
        let t := phaseSub i.phase_data orb
        let med := medianQ (t.filterMap id)
        let newphase := List.zipWith
          (fun ph o => optSub ph (Option.map (fun mv => o + mv) med))
          i.phase_data orb
        { i with phase_data := newphase }
      else
        { i with phase_data := phaseSub i.phase_data orb }))

/-- An element of the `mlooked` argument as seen by duck-typed Python: either
a real interferogram or some other object lacking the phase_data attribute. -/
inductive PyObj where
  | ifgObj (i : Ifg)
  | nonIfg
deriving DecidableEq, Repr

/-- Result of hasattr(x, phase_data). -/
def has_phase_data : PyObj → Bool
  | PyObj.ifgObj _ => true
  | PyObj.nonIfg => false

def toIfg : PyObj → Option Ifg
  | PyObj.ifgObj i => some i
  | PyObj.nonIfg => none

/-- _validate_mlooked of orbital.py: length match, then the hasattr check. -/
def _validate_mlooked (mlooked : List PyObj) (ifgs : List Ifg) :
    Except OrbitalError Unit := do
  if mlooked.length ≠ ifgs.length then
    throw OrbitalError.mismatchedMlookedCount
  if mlooked.all has_phase_data = false then
    throw OrbitalError.mismatchedMlookedTypes

/-- orbital_correction of orbital.py: validate the degree, dispatch on the
method, validating mlooked first on the network path. -/
def orbital_correction (indSolver netSolver : List (List ℚ) → List ℚ → List ℚ)
    (ifgs : List Ifg) (degree : String) (method : String)
    (mlooked : Option (List PyObj) := none) (offset : Bool := true) :
    Except OrbitalError (List Ifg) := do
  if degree ∉ [PLANAR, QUADRATIC, PART_CUBIC] then
    throw (OrbitalError.invalidCorrectionDegree degree)
  if method = NETWORK_METHOD then
    match mlooked with
    | none => _network_correction netSolver ifgs degree offset none
    | some ml => do
      _validate_mlooked ml ifgs
      _network_correction netSolver ifgs degree offset
        (some (ml.filterMap toIfg))
  else if method = INDEPENDENT_METHOD then
    ifgs.mapM (fun i => _independent_correction indSolver i degree offset)
  else
    throw (OrbitalError.unknownMethod method)

-- concrete instances used by the witnesses

def ifgW1 : Ifg :=
  { nrows := 2, ncols := 2, x_size := 1, y_size := 1, master := 10,
    slave := 20, phase_data := [some 0, some 3, some 2, some 5] }

def ifgW2 : Ifg :=
  { nrows := 2, ncols := 2, x_size := 1, y_size := 1, master := 20,
    slave := 30, phase_data := [some 1, none, some 2, some 4] }

def ifgW3 : Ifg :=
  { nrows := 2, ncols := 1, x_size := 1, y_size := 1, master := 10,
    slave := 20, phase_data := [some 0, some 2] }

def ifgW4 : Ifg :=
  { nrows := 2, ncols := 1, x_size := 1, y_size := 1, master := 20,
    slave := 30, phase_data := [some 1, none] }

-- monad-reduction helpers for the Except embedding

@[simp] theorem exBindOk {α β : Type} (a : α)
    (f : α → Except OrbitalError β) : (Except.ok a >>= f) = f a := rfl

@[simp] theorem exBindErr {α β : Type} (e : OrbitalError)
    (f : α → Except OrbitalError β) :
    ((Except.error e : Except OrbitalError α) >>= f) = Except.error e := rfl

@[simp] theorem exThrow {α : Type} (e : OrbitalError) :
    (throw e : Except OrbitalError α) = Except.error e := rfl

@[simp] theorem exPure {α : Type} (a : α) :
    (pure a : Except OrbitalError α) = Except.ok a := rfl

/-- C5: get_num_params returns 2 for PLANAR, 5 for QUADRATIC and 6 for
PART_CUBIC, adds 1 exactly when offset is true, and returns the
invalid-degree orbital error for every degree outside that enumeration. -/
theorem c5_get_num_params (degree : String) (offset : Bool) :
    get_num_params PLANAR offset = Except.ok (2 + if offset then 1 else 0) ∧
    get_num_params QUADRATIC offset
      = Except.ok (5 + if offset then 1 else 0) ∧
    get_num_params PART_CUBIC offset
      = Except.ok (6 + if offset then 1 else 0) ∧
    (degree ∉ [PLANAR, QUADRATIC, PART_CUBIC] →
      get_num_params degree offset
        = Except.error (OrbitalError.invalidModelDegree degree)) := by
  refine ⟨?_, ?_, ?_, fun h => ?_⟩
  · cases offset <;> simp +decide [get_num_params, PLANAR, QUADRATIC, PART_CUBIC]
  · cases offset <;> simp +decide [get_num_params, PLANAR, QUADRATIC, PART_CUBIC]
  · cases offset <;> simp +decide [get_num_params, PLANAR, QUADRATIC, PART_CUBIC]
  · simp only [List.mem_cons, List.not_mem_nil, or_false, not_or] at h
    obtain ⟨h1, h2, h3⟩ := h
    simp [get_num_params, h1, h2, h3]

/-- Closed witness for the hypothesis-bearing conjunct of c5_get_num_params. -/
theorem c5_get_num_params_witness :
    get_num_params "LINEAR" true
      = Except.error (OrbitalError.invalidModelDegree "LINEAR") :=
  (c5_get_num_params "LINEAR" true).2.2.2 (by decide)

/-- C8: with a valid degree and a method value outside the two-method
enumeration, orbital_correction returns the orbital error naming the unknown
method; in this state-passing embedding an error result means no corrected
interferogram collection is produced, so every phase raster is unchanged. -/
theorem c8_unknown_method
    (indSolver netSolver : List (List ℚ) → List ℚ → List ℚ)
    (ifgs : List Ifg) (degree method : String)
    (mlooked : Option (List PyObj)) (offset : Bool)
    (hdeg : degree ∈ [PLANAR, QUADRATIC, PART_CUBIC])
    (hmethod : method ∉ [INDEPENDENT_METHOD, NETWORK_METHOD]) :
    orbital_correction indSolver netSolver ifgs degree method mlooked offset
      = Except.error (OrbitalError.unknownMethod method) := by
  simp only [List.mem_cons, List.not_mem_nil, or_false, not_or] at hmethod
  obtain ⟨h1, h2⟩ := hmethod
  simp [orbital_correction, hdeg, h1, h2]

/-- Closed witness for c8_unknown_method. -/
theorem c8_unknown_method_witness :
    orbital_correction (fun _ _ => []) (fun _ _ => []) [ifgW1] PLANAR "FOO"
      none true = Except.error (OrbitalError.unknownMethod "FOO") :=
  c8_unknown_method _ _ _ _ _ _ _ (by decide) (by decide)

/-- C7: on the network path with a supplied mlooked argument, a length
mismatch yields the mismatched-count orbital error, and, with matching
lengths, an element lacking the phase_data attribute yields the
mismatched-types orbital error; in this embedding the error is returned
instead of any design matrix construction or phase update, so no
interferogram is modified. -/
theorem c7_mlooked_validation
    (indSolver netSolver : List (List ℚ) → List ℚ → List ℚ)
    (ifgs : List Ifg) (ml : List PyObj) (degree : String) (offset : Bool)
    (hdeg : degree ∈ [PLANAR, QUADRATIC, PART_CUBIC]) :
    (ml.length ≠ ifgs.length →
      orbital_correction indSolver netSolver ifgs degree NETWORK_METHOD
        (some ml) offset
        = Except.error OrbitalError.mismatchedMlookedCount) ∧
    (ml.length = ifgs.length → (∃ x ∈ ml, has_phase_data x = false) →
      orbital_correction indSolver netSolver ifgs degree NETWORK_METHOD
        (some ml) offset
        = Except.error OrbitalError.mismatchedMlookedTypes) := by
  constructor
  · intro hlen
    simp [orbital_correction, _validate_mlooked, hdeg, hlen]
  · intro hlen hbad
    have hall : ml.all has_phase_data = false := by
      obtain ⟨x, hx, hfx⟩ := hbad
      refine List.all_eq_false.mpr ⟨x, hx, ?_⟩
      simp [hfx]
    simp [orbital_correction, _validate_mlooked, hdeg, hlen, hall]

/-- Closed witness for c7_mlooked_validation, exercising both error cases. -/
theorem c7_mlooked_validation_witness :
    (orbital_correction (fun _ _ => []) (fun _ _ => []) [] PLANAR
      NETWORK_METHOD (some [PyObj.nonIfg]) true
      = Except.error OrbitalError.mismatchedMlookedCount) ∧
    (orbital_correction (fun _ _ => []) (fun _ _ => []) [ifgW1] PLANAR
      NETWORK_METHOD (some [PyObj.nonIfg]) true
      = Except.error OrbitalError.mismatchedMlookedTypes) :=
  ⟨(c7_mlooked_validation _ _ [] [PyObj.nonIfg] PLANAR true (by decide)).1
      (by decide),
   (c7_mlooked_validation _ _ [ifgW1] [PyObj.nonIfg] PLANAR true
      (by decide)).2 (by decide) ⟨PyObj.nonIfg, by decide, by decide⟩⟩

theorem getD_map_range {α : Type} (f : ℕ → α) (d : α) (n p : ℕ)
    (hp : p < n) : ((List.range n).map f).getD p d = f p := by
  have hlen : p < ((List.range n).map f).length := by simpa using hp
  rw [List.getD_eq_getElem _ _ hlen, List.getElem_map, List.getElem_range]

/-- C2: get_design_matrix has one row per pixel in row-major order; with
x = (column index) * x_size and y = (row index) * y_size the row is [x, y]
for PLANAR, [x^2, y^2, x*y, x, y] for QUADRATIC and
[x*y^2, x^2, y^2, x*y, x, y] for PART_CUBIC, followed by a 1 exactly when
offset is true; every row has get_num_params(degree, offset) entries; the
last column is all ones iff offset is true; and the result is invariant
under any change of the phase data, so no-data pixels cannot influence it
(the interferogram is never mutated in this pure embedding). -/
theorem c2_get_design_matrix (ifg : Ifg) (degree : String) (offset : Bool)
    (dm : List (List ℚ)) (nparams : ℕ)
    (hdeg : degree ∈ [PLANAR, QUADRATIC, PART_CUBIC])
    (hne : 0 < ifg.num_cells)
    (hdm : get_design_matrix ifg degree offset = Except.ok dm)
    (hnp : get_num_params degree offset = Except.ok nparams) :
    dm.length = ifg.num_cells ∧
    (∀ p, p < ifg.num_cells →
      dm.getD p []
        = (let x : ℚ := ((p % ifg.ncols : ℕ) : ℚ) * ifg.x_size
           let y : ℚ := ((p / ifg.ncols : ℕ) : ℚ) * ifg.y_size
           (if degree = PLANAR then [x, y]
            else if degree = QUADRATIC then [x ^ 2, y ^ 2, x * y, x, y]
            else [x * y ^ 2, x ^ 2, y ^ 2, x * y, x, y]) ++
           (if offset then [(1 : ℚ)] else [])) ∧
      (dm.getD p []).length = nparams) ∧
    ((∀ p, p < ifg.num_cells → (dm.getD p []).getLast? = some 1)
      ↔ offset = true) ∧
    (∀ pd : List (Option ℚ),
      get_design_matrix { ifg with phase_data := pd } degree offset
        = Except.ok dm) := by
  have hd3 : degree = PLANAR ∨ degree = QUADRATIC ∨ degree = PART_CUBIC := by
    simpa using hdeg
  have hdm2 : dm = (List.range ifg.num_cells).map (designRow ifg degree offset) := by
    simp [get_design_matrix, hdeg] at hdm
    exact hdm.symm
  subst hdm2
  have hnpv : nparams
      = (if degree = PLANAR then 2 else if degree = QUADRATIC then 5 else 6)
        + (if offset then 1 else 0) := by
    rcases hd3 with h | h | h <;> subst h <;> cases offset <;>
      simp +decide [get_num_params] at hnp ⊢ <;> omega
  refine ⟨by simp, ?_, ?_, ?_⟩
  · intro p hp
    rw [getD_map_range _ _ _ _ hp]
    refine ⟨rfl, ?_⟩
    rcases hd3 with h | h | h <;> subst h <;> cases offset <;>
      simp +decide [designRow, hnpv]
  · constructor
    · intro hall
      by_contra hoff
      have hofff : offset = false := by
        cases offset
        · rfl
        · exact absurd rfl hoff
      subst hofff
      have h0 := hall 0 hne
      rw [getD_map_range _ _ _ _ hne] at h0
      rcases hd3 with h | h | h <;> subst h <;>
        simp +decide [designRow] at h0
    · intro hofft p hp
      subst hofft
      rw [getD_map_range _ _ _ _ hp]
      simp [designRow, List.getLast?_concat]
  · intro pd
    simp [get_design_matrix, hdeg]
    rfl

/-- Closed witness for c2_get_design_matrix at a concrete 2 by 2 PLANAR
interferogram without the offset column. -/
theorem c2_get_design_matrix_witness :
    ([[(0:ℚ), 0], [1, 0], [0, 1], [1, 1]]).length = ifgW1.num_cells ∧
    ((∀ p, p < ifgW1.num_cells →
      (([[(0:ℚ), 0], [1, 0], [0, 1], [1, 1]]).getD p []).getLast?
        = some 1) ↔ false = true) :=
  have h := c2_get_design_matrix ifgW1 PLANAR false
    [[0, 0], [1, 0], [0, 1], [1, 1]] 2 (by decide) (by decide)
    (by norm_num [get_design_matrix, designRow, ifgW1, Ifg.num_cells,
      List.range_succ])
    (by decide)
  ⟨h.1, h.2.2.1⟩

theorem exBind_eq_ok {α β : Type} {x : Except OrbitalError α}
    {f : α → Except OrbitalError β} {b : β} :
    (x >>= f) = Except.ok b ↔ ∃ a, x = Except.ok a ∧ f a = Except.ok b := by
  cases x <;> simp

theorem zipWith_none_getD (f : Option ℚ → ℚ → Option ℚ)
    (hf : ∀ o, f none o = none) (phase : List (Option ℚ)) (corr : List ℚ)
    (p : ℕ) (h : phase.getD p none = none) :
    (List.zipWith f phase corr).getD p none = none := by
  by_cases hp : p < (List.zipWith f phase corr).length
  · rw [List.getD_eq_getElem _ _ hp, List.getElem_zipWith]
    have hplen : p < phase.length := by
      rw [List.length_zipWith] at hp
      exact lt_of_lt_of_le hp (min_le_left _ _)
    have hpe : phase[p] = none := by
      rw [List.getD_eq_getElem _ _ hplen] at h
      exact h
    rw [hpe, hf]
  · push_neg at hp
    exact List.getD_eq_default _ _ hp

theorem getD_map_of_lt {α β : Type} [Inhabited α] [Inhabited β]
    (f : α → β) (l : List α) (k : ℕ) (hk : k < l.length) :
    (l.map f).getD k default = f (l.getD k default) := by
  rw [List.getD_eq_getElem _ _ (by simpa using hk),
    List.getD_eq_getElem _ _ hk, List.getElem_map]

/-- C9: a pixel whose phase is the no-data marker (NaN, modelled as none)
before a correction is still the no-data marker afterwards, for both the
independent and the network method: the in-place subtraction never turns a
no-data pixel into a valid value. -/
theorem c9_nan_pixels_preserved :
    (∀ (solver : List (List ℚ) → List ℚ → List ℚ) (ifg : Ifg)
        (degree : String) (offset : Bool) (out : Ifg),
      _independent_correction solver ifg degree offset = Except.ok out →
      ∀ p : ℕ, ifg.phase_data.getD p none = none →
        out.phase_data.getD p none = none) ∧
    (∀ (netSolver : List (List ℚ) → List ℚ → List ℚ) (ifgs : List Ifg)
        (degree : String) (offset : Bool) (m_ifgs : Option (List Ifg))
        (out : List Ifg),
      _network_correction netSolver ifgs degree offset m_ifgs = Except.ok out →
      ∀ k, k < ifgs.length → ∀ p : ℕ,
        (ifgs.getD k default).phase_data.getD p none = none →
        (out.getD k default).phase_data.getD p none = none) := by
  constructor
  · intro solver ifg degree offset out h p hnone
    simp only [_independent_correction, exBind_eq_ok, exPure,
      Except.ok.injEq] at h
    obtain ⟨dm, hdm, h⟩ := h
    subst h
    simp only [phaseSub]
    exact zipWith_none_getD _ (fun o => rfl) _ _ p hnone
  · intro net ifgs degree offset m_ifgs out h k hk p hnone
    cases ifgs with
    | nil => simp at hk
    | cons i0 rest =>
      simp only [_network_correction, exBind_eq_ok, exPure,
        Except.ok.injEq] at h
      obtain ⟨dm, hdm, ncoef, hncoef, dm2, hdm2, h⟩ := h
      subst h
      rw [getD_map_of_lt _ _ _ hk]
      cases offset
      · exact zipWith_none_getD _ (fun o => rfl) _ _ p hnone
      · exact zipWith_none_getD _ (fun o => rfl) _ _ p hnone

/-- Closed witness for c9_nan_pixels_preserved: the no-data pixel of a
concrete interferogram survives an independent correction as no-data. -/
theorem c9_nan_pixels_preserved_witness :
    ({ ifgW2 with
        phase_data := [some 1, none, some 0, some (-1)] } : Ifg).phase_data.getD
      1 none = none :=
  c9_nan_pixels_preserved.1 (fun _ _ => [3, 2]) ifgW2 PLANAR false
    { ifgW2 with phase_data := [some 1, none, some 0, some (-1)] }
    (by norm_num [_independent_correction, get_design_matrix, designRow,
      ifgW2, Ifg.num_cells, List.range_succ, maskRows, phaseSub, matVec,
      dotL])
    1 rfl

/-- C10: in the network method the design-matrix column blocks are indexed
by the epochs of the source (mlooked) interferograms while the applied
coefficient blocks are indexed by the epochs of the full-resolution ifgs;
both are master_slave_ids over get_all_epochs, so the two assignments
coincide whenever each mlooked element carries the same master and slave
epochs as the corresponding ifg — and the mlooked validation enforces no
such epoch condition: it accepts any list of the right length whose
elements all expose phase_data. -/
theorem c10_epoch_index_consistency :
    (∀ (ifgs m : List Ifg),
      m.length = ifgs.length →
      (∀ k, k < ifgs.length →
        (m.getD k default).master = (ifgs.getD k default).master ∧
        (m.getD k default).slave = (ifgs.getD k default).slave) →
      get_all_epochs m = get_all_epochs ifgs ∧
      master_slave_ids (get_all_epochs m)
        = master_slave_ids (get_all_epochs ifgs)) ∧
    (∀ (ml : List PyObj) (ifgs : List Ifg),
      ml.length = ifgs.length → (∀ x ∈ ml, has_phase_data x = true) →
      _validate_mlooked ml ifgs = Except.ok ()) := by
  constructor
  · intro ifgs m hlen hep
    have hmaster : m.map Ifg.master = ifgs.map Ifg.master := by
      apply List.ext_getElem (by simp [hlen])
      intro k h1 h2
      have hk : k < ifgs.length := by simpa using h2
      have := (hep k hk).1
      rw [List.getD_eq_getElem _ _ (by simpa using h1),
        List.getD_eq_getElem _ _ hk] at this
      simpa using this
    have hslave : m.map Ifg.slave = ifgs.map Ifg.slave := by
      apply List.ext_getElem (by simp [hlen])
      intro k h1 h2
      have hk : k < ifgs.length := by simpa using h2
      have := (hep k hk).2
      rw [List.getD_eq_getElem _ _ (by simpa using h1),
        List.getD_eq_getElem _ _ hk] at this
      simpa using this
    have hep2 : get_all_epochs m = get_all_epochs ifgs := by
      rw [get_all_epochs, get_all_epochs, hmaster, hslave]
    exact ⟨hep2, by rw [hep2]⟩
  · intro ml ifgs hlen hall
    have h2 : ml.all has_phase_data = true := List.all_eq_true.mpr hall
    simp [_validate_mlooked, hlen, h2]

/-- Closed witness for c10_epoch_index_consistency: the index maps agree for
an epoch-matching pair, and validation accepts an epoch-mismatched mlooked
list of the right length. -/
theorem c10_epoch_index_consistency_witness :
    (master_slave_ids (get_all_epochs [{ ifgW1 with phase_data := [] }])
      = master_slave_ids (get_all_epochs [ifgW1])) ∧
    _validate_mlooked [PyObj.ifgObj ifgW2] [ifgW1] = Except.ok () :=
  ⟨(c10_epoch_index_consistency.1 [ifgW1] [{ ifgW1 with phase_data := [] }]
      (by decide) (fun k hk => by
        have hk1 : k < 1 := hk
        interval_cases k
        exact ⟨rfl, rfl⟩)).2,
   c10_epoch_index_consistency.2 [PyObj.ifgObj ifgW2] [ifgW1] (by decide)
      (fun x hx => by
        cases hx with
        | head => rfl
        | tail _ h => cases h)⟩

theorem sum_zipWith_sq_nonneg (xs ys : List ℚ) :
    0 ≤ (List.zipWith (fun a b => (a - b) ^ 2) xs ys).sum := by
  induction xs generalizing ys with
  | nil => simp
  | cons x xs ih =>
    cases ys with
    | nil => simp
    | cons y ys =>
      simp only [List.zipWith_cons_cons, List.sum_cons]
      have h1 : (0:ℚ) ≤ (x - y) ^ 2 := sq_nonneg _
      have h2 := ih ys
      linarith

theorem rss_nonneg (dm : List (List ℚ)) (fd model : List ℚ) :
    0 ≤ rss dm fd model :=
  sum_zipWith_sq_nonneg (matVec dm model) fd

theorem sum_zipWith_sq_eq_zero (xs ys : List ℚ)
    (h : (List.zipWith (fun a b => (a - b) ^ 2) xs ys).sum = 0) :
    ∀ p, p < xs.length → p < ys.length → xs.getD p 0 = ys.getD p 0 := by
  induction xs generalizing ys with
  | nil => intro p hp; simp at hp
  | cons x xs ih =>
    intro p hp1 hp2
    cases ys with
    | nil => simp at hp2
    | cons y ys =>
      simp only [List.zipWith_cons_cons, List.sum_cons] at h
      have h1 : (0:ℚ) ≤ (x - y) ^ 2 := sq_nonneg _
      have h2 := sum_zipWith_sq_nonneg xs ys
      have hx : (x - y) ^ 2 = 0 := by linarith
      have hxy : x = y := by
        have hz := sq_eq_zero_iff.mp hx
        linarith
      cases p with
      | zero => simpa using hxy
      | succ q =>
        simp only [List.getD_cons_succ]
        exact ih ys (by linarith) q (by simpa using hp1) (by simpa using hp2)

theorem maskRows_all_some (phase : List (Option ℚ)) (dm : List (List ℚ))
    (hall : ∀ x ∈ phase, x.isSome = true) (hlen : phase.length = dm.length) :
    maskRows phase dm = dm := by
  induction phase generalizing dm with
  | nil =>
    cases dm with
    | nil => rfl
    | cons row dm => simp at hlen
  | cons ph rest ih =>
    cases dm with
    | nil => simp at hlen
    | cons row dm =>
      have h1 : ph.isSome = true := hall ph (List.mem_cons_self _ _)
      have h2 := ih dm (fun x hx => hall x (List.mem_cons_of_mem _ hx))
        (by simpa using hlen)
      simp only [maskRows] at h2 ⊢
      simp [List.zip_cons_cons, List.filter_cons, h1, h2]

theorem sum_zipWith_sq_zero_of_eq (xs ys : List ℚ)
    (h : ∀ p, p < xs.length → p < ys.length → xs.getD p 0 = ys.getD p 0) :
    (List.zipWith (fun a b => (a - b) ^ 2) xs ys).sum = 0 := by
  induction xs generalizing ys with
  | nil => simp
  | cons x xs ih =>
    cases ys with
    | nil => simp
    | cons y ys =>
      simp only [List.zipWith_cons_cons, List.sum_cons]
      have h0 : x = y := by
        have := h 0 (by simp) (by simp)
        simpa using this
      have hrest := ih ys (fun p h1 h2 => by
        have := h (p + 1) (by simpa using h1) (by simpa using h2)
        simpa [List.getD_cons_succ] using this)
      rw [h0, sub_self, hrest]
      simp

theorem matVec_getD (mat : List (List ℚ)) (v : List ℚ) (p : ℕ)
    (hp : p < mat.length) :
    (matVec mat v).getD p 0 = dotL (mat.getD p []) v := by
  rw [matVec, List.getD_eq_getElem _ _ (by simpa using hp),
    List.getElem_map, List.getD_eq_getElem _ _ hp]

theorem list_ext_getD {α : Type} (d : α) (l1 l2 : List α)
    (hlen : l1.length = l2.length)
    (h : ∀ p, p < l1.length → l1.getD p d = l2.getD p d) : l1 = l2 := by
  apply List.ext_getElem hlen
  intro n h1 h2
  have hn := h n h1
  rwa [List.getD_eq_getElem _ _ h1, List.getD_eq_getElem _ _ h2] at hn

theorem phaseSub_getD (phase : List (Option ℚ)) (corr : List ℚ) (p : ℕ)
    (h1 : p < phase.length) (h2 : p < corr.length) :
    (phaseSub phase corr).getD p none
      = Option.map (fun v => v - corr.getD p 0) (phase.getD p none) := by
  rw [phaseSub, List.getD_eq_getElem _ _
      (by rw [List.length_zipWith]; exact lt_min h1 h2),
    List.getElem_zipWith, List.getD_eq_getElem _ _ h1,
    List.getD_eq_getElem _ _ h2]

theorem getD_replicate_of_lt {α : Type} (a d : α) (n p : ℕ) (hp : p < n) :
    (List.replicate n a).getD p d = a := by
  rw [List.getD_eq_getElem _ _ (by simpa using hp), List.getElem_replicate]

/-- C4: if an interferogram has no no-data pixels and its phase raster
exactly equals a polynomial trend expressible in the chosen basis (pixel p
holds the dot product of design-matrix row p with a coefficient vector c),
then independent correction with any least-squares solver leaves the phase
exactly zero at every pixel: the solve recovers a model whose forward
correction reproduces the phase (exact arithmetic over the rationals). -/
theorem c4_independent_exact_trend
    (solver : List (List ℚ) → List ℚ → List ℚ) (ifg : Ifg) (degree : String)
    (offset : Bool) (c : List ℚ) (dm : List (List ℚ))
    (hdeg : degree ∈ [PLANAR, QUADRATIC, PART_CUBIC])
    (hdm : get_design_matrix ifg degree offset = Except.ok dm)
    (hlen : ifg.phase_data.length = ifg.num_cells)
    (htrend : ∀ p, p < ifg.num_cells →
      ifg.phase_data.getD p none = some (dotL (dm.getD p []) c))
    (hsol : IsLstsqSol dm (ifg.phase_data.filterMap id)
      (solver dm (ifg.phase_data.filterMap id))) :
    _independent_correction solver ifg degree offset
      = Except.ok { ifg with
          phase_data := List.replicate ifg.num_cells (some 0) } := by
  have hdml : dm
      = (List.range ifg.num_cells).map (designRow ifg degree offset) := by
    simp [get_design_matrix, hdeg] at hdm
    exact hdm.symm
  have hdmlen : dm.length = ifg.num_cells := by rw [hdml]; simp
  have hphase : ifg.phase_data
      = (List.range ifg.num_cells).map
          (fun p => some (dotL (dm.getD p []) c)) := by
    apply List.ext_getElem (by simp [hlen])
    intro p h1 h2
    have hp : p < ifg.num_cells := by simpa using h2
    have ht := htrend p hp
    rw [List.getD_eq_getElem _ _ h1] at ht
    rw [ht, List.getElem_map, List.getElem_range]
  have hallsome : ∀ x ∈ ifg.phase_data, x.isSome = true := by
    rw [hphase]
    intro x hx
    simp only [List.mem_map] at hx
    obtain ⟨p, -, rfl⟩ := hx
    rfl
  have hmask : maskRows ifg.phase_data dm = dm :=
    maskRows_all_some _ _ hallsome (by rw [hlen, hdmlen])
  have hfd : ifg.phase_data.filterMap id
      = (List.range ifg.num_cells).map (fun p => dotL (dm.getD p []) c) := by
    rw [hphase, List.filterMap_map]
    have hco : (id ∘ fun p => some (dotL (dm.getD p []) c))
        = (some ∘ fun p => dotL (dm.getD p []) c) := rfl
    rw [hco, List.filterMap_eq_map]
  have hfdlen : (ifg.phase_data.filterMap id).length = ifg.num_cells := by
    rw [hfd]; simp
  have hrssc : rss dm (ifg.phase_data.filterMap id) c = 0 := by
    simp only [rss]
    apply sum_zipWith_sq_zero_of_eq
    intro p h1 h2
    have hp : p < dm.length := by simpa [matVec] using h1
    rw [matVec_getD _ _ _ hp, hfd,
      getD_map_range _ _ _ _ (by rwa [hdmlen] at hp)]
  have hrssm : rss dm (ifg.phase_data.filterMap id)
      (solver dm (ifg.phase_data.filterMap id)) = 0 := by
    have h1 := hsol c
    rw [hrssc] at h1
    have h2 := rss_nonneg dm (ifg.phase_data.filterMap id)
      (solver dm (ifg.phase_data.filterMap id))
    linarith
  have heq : ∀ p, p < ifg.num_cells →
      dotL (dm.getD p []) (solver dm (ifg.phase_data.filterMap id))
        = dotL (dm.getD p []) c := by
    intro p hp
    have h0 := sum_zipWith_sq_eq_zero
      (matVec dm (solver dm (ifg.phase_data.filterMap id)))
      (ifg.phase_data.filterMap id) hrssm p
      (by simp only [matVec, List.length_map]; rwa [hdmlen])
      (by rwa [hfdlen])
    have hr : (ifg.phase_data.filterMap id).getD p 0
        = dotL (dm.getD p []) c := by
      rw [hfd, getD_map_range _ _ _ _ hp]
    rw [matVec_getD _ _ _ (by rwa [hdmlen]), hr] at h0
    exact h0
  simp only [_independent_correction, hdm, exBindOk, exPure, hmask,
    Except.ok.injEq]
  have hfinal : phaseSub ifg.phase_data
      (matVec dm (solver dm (ifg.phase_data.filterMap id)))
      = List.replicate ifg.num_cells (some 0) := by
    apply list_ext_getD none
    · simp only [phaseSub, List.length_zipWith, matVec, List.length_map,
        List.length_replicate, hlen, hdmlen]
      simp
    · intro p hp0
      have hp : p < ifg.num_cells := by
        simpa [phaseSub, List.length_zipWith, matVec, hlen, hdmlen] using hp0
      rw [phaseSub_getD _ _ _ (by rwa [hlen])
          (by simp only [matVec, List.length_map]; rwa [hdmlen]),
        htrend p hp, matVec_getD _ _ _ (by rwa [hdmlen]), heq p hp,
        getD_replicate_of_lt _ _ _ _ hp]
      simp
  rw [hfinal]

/-- Closed witness for c4_independent_exact_trend at phase = 3x + 2y on a
2 by 2 grid with unit cell sizes, PLANAR degree, no offset column. -/
theorem c4_independent_exact_trend_witness :
    _independent_correction (fun _ _ => [3, 2]) ifgW1 PLANAR false
      = Except.ok { ifgW1 with
          phase_data := List.replicate ifgW1.num_cells (some 0) } :=
  c4_independent_exact_trend (fun _ _ => [3, 2]) ifgW1 PLANAR false [3, 2]
    [[0, 0], [1, 0], [0, 1], [1, 1]]
    (by decide)
    (by norm_num [get_design_matrix, designRow, ifgW1, Ifg.num_cells,
      List.range_succ])
    (by decide)
    (by
      intro p hp
      have h4 : p < 4 := hp
      interval_cases p <;> norm_num [ifgW1, dotL])
    (by
      intro other
      have h0 : rss [[(0:ℚ), 0], [1, 0], [0, 1], [1, 1]]
          (ifgW1.phase_data.filterMap id) [3, 2] = 0 := by
        norm_num [rss, matVec, dotL, ifgW1, List.filterMap_cons]
      rw [h0]
      exact rss_nonneg _ _ _)

theorem overwriteSlice_length (row vals : List ℚ) (cs : ℕ) :
    (overwriteSlice row cs vals).length = row.length := by
  simp [overwriteSlice]

theorem overwriteSlice_getD (row vals : List ℚ) (cs c : ℕ) :
    (overwriteSlice row cs vals).getD c 0
      = if cs ≤ c ∧ c < cs + vals.length ∧ c < row.length
        then vals.getD (c - cs) 0 else row.getD c 0 := by
  by_cases hc : c < row.length
  · have hlen : c < (overwriteSlice row cs vals).length := by
      rwa [overwriteSlice_length]
    rw [List.getD_eq_getElem _ _ hlen]
    simp only [overwriteSlice, List.getElem_mapIdx]
    by_cases h1 : cs ≤ c ∧ c < cs + vals.length
    · simp [h1, hc]
    · rw [if_neg h1, if_neg (by tauto), List.getD_eq_getElem _ _ hc]
  · have hle : row.length ≤ c := le_of_not_lt hc
    have e1 : (overwriteSlice row cs vals).getD c 0 = 0 :=
      List.getD_eq_default _ _ (by rwa [overwriteSlice_length])
    have e2 : row.getD c 0 = 0 := List.getD_eq_default _ _ hle
    rw [e1, e2, if_neg (by tauto)]

theorem writeBlock_length (ndm block : List (List ℚ)) (rs cs : ℕ) :
    (writeBlock ndm rs block cs).length = ndm.length := by
  simp [writeBlock]

theorem writeBlock_getD_row (ndm block : List (List ℚ)) (rs cs r : ℕ)
    (hr : r < ndm.length) :
    (writeBlock ndm rs block cs).getD r []
      = if rs ≤ r ∧ r < rs + block.length then
          overwriteSlice (ndm.getD r []) cs (block.getD (r - rs) [])
        else ndm.getD r [] := by
  have hr2 : r < (writeBlock ndm rs block cs).length := by
    rwa [writeBlock_length]
  rw [List.getD_eq_getElem _ _ hr2]
  simp only [writeBlock, List.getElem_mapIdx]
  rw [List.getD_eq_getElem _ _ hr]

theorem writeBlock_rowlen (ndm block : List (List ℚ)) (rs cs r : ℕ) :
    ((writeBlock ndm rs block cs).getD r []).length
      = (ndm.getD r []).length := by
  by_cases hr : r < ndm.length
  · rw [writeBlock_getD_row _ _ _ _ _ hr]
    by_cases h : rs ≤ r ∧ r < rs + block.length
    · simp [h, overwriteSlice_length]
    · simp [h]
  · have hle : ndm.length ≤ r := le_of_not_lt hr
    have e1 : (writeBlock ndm rs block cs).getD r [] = ([] : List ℚ) :=
      List.getD_eq_default _ _ (by rwa [writeBlock_length])
    have e2 : ndm.getD r [] = ([] : List ℚ) := List.getD_eq_default _ _ hle
    rw [e1, e2]

theorem entryAt_writeBlock (ndm block : List (List ℚ)) (rs cs r c : ℕ)
    (hr : r < ndm.length) :
    entryAt (writeBlock ndm rs block cs) r c
      = if rs ≤ r ∧ r < rs + block.length then
          (overwriteSlice (ndm.getD r []) cs (block.getD (r - rs) [])).getD c 0
        else entryAt ndm r c := by
  rw [entryAt, writeBlock_getD_row _ _ _ _ _ hr]
  by_cases h : rs ≤ r ∧ r < rs + block.length
  · simp [h]
  · simp [h, entryAt]

theorem entryAt_writeBlock_out (ndm block : List (List ℚ)) (rs cs r c : ℕ)
    (hout : r < rs ∨ rs + block.length ≤ r) :
    entryAt (writeBlock ndm rs block cs) r c = entryAt ndm r c := by
  by_cases hr : r < ndm.length
  · rw [entryAt_writeBlock _ _ _ _ _ _ hr, if_neg (by omega)]
  · have hle : ndm.length ≤ r := le_of_not_lt hr
    have e1 : (writeBlock ndm rs block cs).getD r [] = ([] : List ℚ) :=
      List.getD_eq_default _ _ (by rwa [writeBlock_length])
    have e2 : ndm.getD r [] = ([] : List ℚ) := List.getD_eq_default _ _ hle
    rw [entryAt, entryAt, e1, e2]

theorem writeOnesCol_length (ndm : List (List ℚ)) (rs nrows c0 : ℕ) :
    (writeOnesCol ndm rs nrows c0).length = ndm.length := by
  simp [writeOnesCol]

theorem writeOnesCol_getD_row (ndm : List (List ℚ)) (rs nrows c0 r : ℕ)
    (hr : r < ndm.length) :
    (writeOnesCol ndm rs nrows c0).getD r []
      = if rs ≤ r ∧ r < rs + nrows then
          overwriteSlice (ndm.getD r []) c0 [1]
        else ndm.getD r [] := by
  have hr2 : r < (writeOnesCol ndm rs nrows c0).length := by
    rwa [writeOnesCol_length]
  rw [List.getD_eq_getElem _ _ hr2]
  simp only [writeOnesCol, List.getElem_mapIdx]
  rw [List.getD_eq_getElem _ _ hr]

theorem writeOnesCol_rowlen (ndm : List (List ℚ)) (rs nrows c0 r : ℕ) :
    ((writeOnesCol ndm rs nrows c0).getD r []).length
      = (ndm.getD r []).length := by
  by_cases hr : r < ndm.length
  · rw [writeOnesCol_getD_row _ _ _ _ _ hr]
    by_cases h : rs ≤ r ∧ r < rs + nrows
    · simp [h, overwriteSlice_length]
    · simp [h]
  · have hle : ndm.length ≤ r := le_of_not_lt hr
    have e1 : (writeOnesCol ndm rs nrows c0).getD r [] = ([] : List ℚ) :=
      List.getD_eq_default _ _ (by rwa [writeOnesCol_length])
    have e2 : ndm.getD r [] = ([] : List ℚ) := List.getD_eq_default _ _ hle
    rw [e1, e2]

theorem entryAt_writeOnesCol (ndm : List (List ℚ)) (rs nrows c0 r c : ℕ)
    (hr : r < ndm.length) :
    entryAt (writeOnesCol ndm rs nrows c0) r c
      = if rs ≤ r ∧ r < rs + nrows then
          (overwriteSlice (ndm.getD r []) c0 [1]).getD c 0
        else entryAt ndm r c := by
  rw [entryAt, writeOnesCol_getD_row _ _ _ _ _ hr]
  by_cases h : rs ≤ r ∧ r < rs + nrows
  · simp [h]
  · simp [h, entryAt]

theorem entryAt_writeOnesCol_out (ndm : List (List ℚ)) (rs nrows c0 r c : ℕ)
    (hout : r < rs ∨ rs + nrows ≤ r) :
    entryAt (writeOnesCol ndm rs nrows c0) r c = entryAt ndm r c := by
  by_cases hr : r < ndm.length
  · rw [entryAt_writeOnesCol _ _ _ _ _ _ hr, if_neg (by omega)]
  · have hle : ndm.length ≤ r := le_of_not_lt hr
    have e1 : (writeOnesCol ndm rs nrows c0).getD r [] = ([] : List ℚ) :=
      List.getD_eq_default _ _ (by rwa [writeOnesCol_length])
    have e2 : ndm.getD r [] = ([] : List ℚ) := List.getD_eq_default _ _ hle
    rw [entryAt, entryAt, e1, e2]

theorem negMat_length (mat : List (List ℚ)) :
    (negMat mat).length = mat.length := by
  simp [negMat]

theorem negMat_getD (mat : List (List ℚ)) (p : ℕ) (hp : p < mat.length) :
    (negMat mat).getD p [] = (mat.getD p []).map (fun v => -v) := by
  have hp2 : p < (negMat mat).length := by rwa [negMat_length]
  rw [List.getD_eq_getElem _ _ hp2]
  simp only [negMat, List.getElem_map]
  rw [List.getD_eq_getElem _ _ hp]

theorem getD_map_neg (row : List ℚ) (j : ℕ) :
    (row.map (fun v => -v)).getD j 0 = -(row.getD j 0) := by
  have h := @List.getD_map ℚ ℚ row (0 : ℚ) j (fun v => -v)
  simpa using h

theorem networkStep_length (tmp : List (List ℚ)) (ids : ℕ → ℕ)
    (ncoef oc : ℕ) (offset : Bool) (ndm : List (List ℚ)) (pr : ℕ × Ifg) :
    (networkStep tmp ids ncoef oc offset ndm pr).length = ndm.length := by
  cases offset <;>
    simp [networkStep, writeOnesCol_length, writeBlock_length]

theorem networkStep_rowlen (tmp : List (List ℚ)) (ids : ℕ → ℕ)
    (ncoef oc : ℕ) (offset : Bool) (ndm : List (List ℚ)) (pr : ℕ × Ifg)
    (r : ℕ) :
    ((networkStep tmp ids ncoef oc offset ndm pr).getD r []).length
      = (ndm.getD r []).length := by
  cases offset
  · simp only [networkStep]
    rw [if_neg (by simp), writeBlock_rowlen, writeBlock_rowlen]
  · simp only [networkStep]
    rw [if_pos (by trivial), writeOnesCol_rowlen, writeBlock_rowlen,
      writeBlock_rowlen]

theorem entryAt_networkStep_out (tmp : List (List ℚ)) (ids : ℕ → ℕ)
    (ncoef oc : ℕ) (offset : Bool) (ndm : List (List ℚ)) (k : ℕ) (ifg : Ifg)
    (r c : ℕ) (htmp : tmp.length = ifg.num_cells)
    (hout : r < k * ifg.num_cells ∨ k * ifg.num_cells + ifg.num_cells ≤ r) :
    entryAt (networkStep tmp ids ncoef oc offset ndm (k, ifg)) r c
      = entryAt ndm r c := by
  have h1 : (negMat tmp).length = ifg.num_cells := by rw [negMat_length, htmp]
  cases offset
  · simp only [networkStep]
    rw [if_neg (by simp)]
    rw [entryAt_writeBlock_out _ _ _ _ _ _ (by rw [htmp]; omega),
      entryAt_writeBlock_out _ _ _ _ _ _ (by rw [h1]; omega)]
  · simp only [networkStep]
    rw [if_pos (by trivial)]
    rw [entryAt_writeOnesCol_out _ _ _ _ _ _ (by omega),
      entryAt_writeBlock_out _ _ _ _ _ _ (by rw [htmp]; omega),
      entryAt_writeBlock_out _ _ _ _ _ _ (by rw [h1]; omega)]

theorem entryAt_networkStep_in (tmp : List (List ℚ)) (ids : ℕ → ℕ)
    (ncoef oc : ℕ) (offset : Bool) (ndm : List (List ℚ)) (k : ℕ) (ifg : Ifg)
    (p c W : ℕ)
    (hp : p < ifg.num_cells)
    (htmp : tmp.length = ifg.num_cells)
    (htmprow : (tmp.getD p []).length = ncoef)
    (hr : k * ifg.num_cells + p < ndm.length)
    (hrow : (ndm.getD (k * ifg.num_cells + p) []).length = W)
    (hc : c < W) :
    entryAt (networkStep tmp ids ncoef oc offset ndm (k, ifg))
        (k * ifg.num_cells + p) c
      = if offset = true ∧ c = oc + k then 1
        else if ids ifg.slave * ncoef ≤ c ∧ c < ids ifg.slave * ncoef + ncoef
        then (tmp.getD p []).getD (c - ids ifg.slave * ncoef) 0
        else if ids ifg.master * ncoef ≤ c
            ∧ c < ids ifg.master * ncoef + ncoef
        then -((tmp.getD p []).getD (c - ids ifg.master * ncoef) 0)
        else entryAt ndm (k * ifg.num_cells + p) c := by
  have hrsub : k * ifg.num_cells + p - k * ifg.num_cells = p := by omega
  have hblock : (negMat tmp).getD p [] = (tmp.getD p []).map (fun v => -v) :=
    negMat_getD _ _ (by rwa [htmp])
  have E1 : entryAt (writeBlock ndm (k * ifg.num_cells) (negMat tmp)
        (ids ifg.master * ncoef)) (k * ifg.num_cells + p) c
      = if ids ifg.master * ncoef ≤ c ∧ c < ids ifg.master * ncoef + ncoef
        then -((tmp.getD p []).getD (c - ids ifg.master * ncoef) 0)
        else entryAt ndm (k * ifg.num_cells + p) c := by
    rw [entryAt_writeBlock _ _ _ _ _ _ hr,
      if_pos ⟨Nat.le_add_right _ _, by rw [negMat_length, htmp]; omega⟩,
      hrsub, hblock, overwriteSlice_getD]
    have hmaplen : ((tmp.getD p []).map (fun v => -v)).length = ncoef := by
      rw [List.length_map, htmprow]
    rw [hmaplen, hrow]
    by_cases h : ids ifg.master * ncoef ≤ c
        ∧ c < ids ifg.master * ncoef + ncoef
    · rw [if_pos ⟨h.1, h.2, hc⟩, getD_map_neg, if_pos h]
    · rw [if_neg (by tauto), if_neg h]
      rfl
  have hr1 : k * ifg.num_cells + p
      < (writeBlock ndm (k * ifg.num_cells) (negMat tmp)
          (ids ifg.master * ncoef)).length := by
    rwa [writeBlock_length]
  have hrow1 : ((writeBlock ndm (k * ifg.num_cells) (negMat tmp)
        (ids ifg.master * ncoef)).getD (k * ifg.num_cells + p) []).length
      = W := by
    rw [writeBlock_rowlen, hrow]
  have E2 : entryAt (writeBlock (writeBlock ndm (k * ifg.num_cells)
        (negMat tmp) (ids ifg.master * ncoef)) (k * ifg.num_cells) tmp
        (ids ifg.slave * ncoef)) (k * ifg.num_cells + p) c
      = if ids ifg.slave * ncoef ≤ c ∧ c < ids ifg.slave * ncoef + ncoef
        then (tmp.getD p []).getD (c - ids ifg.slave * ncoef) 0
        else entryAt (writeBlock ndm (k * ifg.num_cells) (negMat tmp)
          (ids ifg.master * ncoef)) (k * ifg.num_cells + p) c := by
    rw [entryAt_writeBlock _ _ _ _ _ _ hr1,
      if_pos ⟨Nat.le_add_right _ _, by rw [htmp]; omega⟩,
      hrsub, overwriteSlice_getD, htmprow, hrow1]
    by_cases h : ids ifg.slave * ncoef ≤ c ∧ c < ids ifg.slave * ncoef + ncoef
    · rw [if_pos ⟨h.1, h.2, hc⟩, if_pos h]
    · rw [if_neg (by tauto), if_neg h]
      rfl
  cases offset
  · simp only [networkStep]
    rw [if_neg (by simp), E2, E1]
    have hfalse : (false = true ∧ c = oc + k) = False := by simp
    simp only [hfalse, if_false]
  · simp only [networkStep]
    rw [if_pos (by trivial)]
    have hr2 : k * ifg.num_cells + p
        < (writeBlock (writeBlock ndm (k * ifg.num_cells) (negMat tmp)
            (ids ifg.master * ncoef)) (k * ifg.num_cells) tmp
            (ids ifg.slave * ncoef)).length := by
      rwa [writeBlock_length, writeBlock_length]
    have hrow2 : ((writeBlock (writeBlock ndm (k * ifg.num_cells)
          (negMat tmp) (ids ifg.master * ncoef)) (k * ifg.num_cells) tmp
          (ids ifg.slave * ncoef)).getD (k * ifg.num_cells + p) []).length
        = W := by
      rw [writeBlock_rowlen, writeBlock_rowlen, hrow]
    rw [entryAt_writeOnesCol _ _ _ _ _ _ hr2,
      if_pos ⟨Nat.le_add_right _ _, by omega⟩, overwriteSlice_getD, hrow2]
    by_cases hco : c = oc + k
    · have hpos1 : oc + k ≤ c ∧ c < oc + k + ([(1 : ℚ)]).length ∧ c < W := by
        refine ⟨by omega, by simp; omega, hc⟩
      rw [if_pos hpos1]
      subst hco
      simp
    · have hnot1 : ¬(oc + k ≤ c ∧ c < oc + k + ([(1 : ℚ)]).length ∧ c < W) := by
        simp only [List.length_singleton]
        omega
      rw [if_neg hnot1]
      change entryAt _ (k * ifg.num_cells + p) c = _
      rw [E2, E1]
      have hnot2 : ¬(True ∧ c = oc + k) := by simp [hco]
      rw [if_neg hnot2]

theorem fold_networkStep_out (tmp : List (List ℚ)) (ids : ℕ → ℕ)
    (ncoef oc nc : ℕ) (offset : Bool) (l : List Ifg) (k : ℕ)
    (acc : List (List ℚ)) (r c : ℕ)
    (huni : ∀ i ∈ l, i.num_cells = nc)
    (htmp : tmp.length = nc)
    (hr : r < k * nc) :
    entryAt ((List.enumFrom k l).foldl
        (networkStep tmp ids ncoef oc offset) acc) r c
      = entryAt acc r c := by
  revert huni hr
  induction l generalizing k acc with
  | nil =>
    intro _ _
    rfl
  | cons ifg rest ih =>
    intro huni hr
    rw [List.enumFrom_cons, List.foldl_cons]
    have hnc : ifg.num_cells = nc := huni ifg (List.mem_cons_self _ _)
    rw [ih (k + 1) _ (fun i hi => huni i (List.mem_cons_of_mem _ hi))
      (lt_of_lt_of_le hr (mul_le_mul_right' (Nat.le_succ _) nc))]
    exact entryAt_networkStep_out tmp ids ncoef oc offset acc k ifg r c
      (by rw [hnc]; exact htmp)
      (Or.inl (by rw [hnc]; exact hr))

theorem fold_networkStep_in (tmp : List (List ℚ)) (ids : ℕ → ℕ)
    (ncoef oc nc W N : ℕ) (offset : Bool) (l : List Ifg) (k j : ℕ)
    (acc : List (List ℚ)) (p c : ℕ)
    (hp : p < nc) (hc : c < W)
    (htmp : tmp.length = nc)
    (htmprow : ∀ row ∈ tmp, row.length = ncoef)
    (hj : j < l.length)
    (huni : ∀ i ∈ l, i.num_cells = nc)
    (hacclen : acc.length = N)
    (haccrow : ∀ r, r < N → (acc.getD r []).length = W)
    (hrN : (k + j) * nc + p < N) :
    entryAt ((List.enumFrom k l).foldl
        (networkStep tmp ids ncoef oc offset) acc) ((k + j) * nc + p) c
      = (if offset = true ∧ c = oc + (k + j) then 1
         else if ids (l.getD j default).slave * ncoef ≤ c
             ∧ c < ids (l.getD j default).slave * ncoef + ncoef
         then (tmp.getD p []).getD
            (c - ids (l.getD j default).slave * ncoef) 0
         else if ids (l.getD j default).master * ncoef ≤ c
             ∧ c < ids (l.getD j default).master * ncoef + ncoef
         then -((tmp.getD p []).getD
            (c - ids (l.getD j default).master * ncoef) 0)
         else entryAt acc ((k + j) * nc + p) c) := by
  have htmprow2 : (tmp.getD p []).length = ncoef := by
    have hmem : tmp.getD p [] ∈ tmp := by
      rw [List.getD_eq_getElem _ _ (by rw [htmp]; exact hp)]
      exact List.getElem_mem _
    exact htmprow _ hmem
  revert hj huni hacclen haccrow hrN
  induction l generalizing k j acc with
  | nil =>
    intro hj _ _ _ _
    simp at hj
  | cons ifg rest ih =>
    intro hj huni hacclen haccrow hrN
    rw [List.enumFrom_cons, List.foldl_cons]
    have hnc : ifg.num_cells = nc := huni ifg (List.mem_cons_self _ _)
    cases j with
    | zero =>
      simp only [Nat.add_zero] at hrN ⊢
      simp only [List.getD_cons_zero]
      rw [fold_networkStep_out tmp ids ncoef oc nc offset rest (k + 1)
        _ _ c (fun i hi => huni i (List.mem_cons_of_mem _ hi)) htmp
        (by rw [Nat.succ_mul]; omega)]
      have hkn : k * nc = k * ifg.num_cells := by rw [hnc]
      rw [hkn] at hrN ⊢
      exact entryAt_networkStep_in tmp ids ncoef oc offset acc k ifg p c W
        (by rw [hnc]; exact hp) (by rw [hnc]; exact htmp) htmprow2
        (by rw [hacclen]; exact hrN) (haccrow _ hrN) hc
    | succ q =>
      have harith : k + (q + 1) = k + 1 + q := by omega
      simp only [List.getD_cons_succ]
      rw [harith]
      rw [ih (k + 1) q (networkStep tmp ids ncoef oc offset acc (k, ifg))
        (by simp only [List.length_cons] at hj; omega)
        (fun i hi => huni i (List.mem_cons_of_mem _ hi))
        (by rw [networkStep_length, hacclen])
        (fun r hrlt => by rw [networkStep_rowlen]; exact haccrow r hrlt)
        (by rw [show k + 1 + q = k + (q + 1) by omega]; exact hrN)]
      rw [entryAt_networkStep_out tmp ids ncoef oc offset acc k ifg
        ((k + 1 + q) * nc + p) c (by rw [hnc]; exact htmp)
        (Or.inr (by
          rw [hnc, Nat.add_mul, Nat.add_mul, Nat.one_mul]
          omega))]

theorem mem_uniqueFirst (l : List ℕ) (x : ℕ) :
    x ∈ uniqueFirst l ↔ x ∈ l := by
  induction l with
  | nil => simp [uniqueFirst]
  | cons d rest ih =>
    simp only [uniqueFirst, List.mem_cons, List.mem_filter]
    constructor
    · rintro (rfl | ⟨hx, -⟩)
      · exact Or.inl rfl
      · exact Or.inr (ih.mp hx)
    · rintro (rfl | hx)
      · exact Or.inl rfl
      · by_cases hxd : x = d
        · exact Or.inl hxd
        · refine Or.inr ⟨ih.mpr hx, ?_⟩
          simp [hxd]

theorem nodup_uniqueFirst (l : List ℕ) : (uniqueFirst l).Nodup := by
  induction l with
  | nil => simp [uniqueFirst]
  | cons d rest ih =>
    simp only [uniqueFirst]
    rw [List.nodup_cons]
    refine ⟨?_, List.Nodup.filter _ ih⟩
    intro hmem
    rw [List.mem_filter] at hmem
    exact absurd hmem.2 (by simp)

theorem master_slave_ids_lt (dates : List ℕ) (d : ℕ) (hd : d ∈ dates) :
    master_slave_ids dates d < (uniqueFirst dates).length := by
  simp only [master_slave_ids]
  exact List.indexOf_lt_length.mpr ((mem_uniqueFirst _ _).mpr hd)

theorem master_slave_ids_inj (dates : List ℕ) (d1 d2 : ℕ)
    (h1 : d1 ∈ dates) (h2 : d2 ∈ dates) (hne : d1 ≠ d2) :
    master_slave_ids dates d1 ≠ master_slave_ids dates d2 := by
  simp only [master_slave_ids]
  intro heq
  have hl1 : List.indexOf d1 (uniqueFirst dates) < (uniqueFirst dates).length :=
    List.indexOf_lt_length.mpr ((mem_uniqueFirst _ _).mpr h1)
  have hl2 : List.indexOf d2 (uniqueFirst dates) < (uniqueFirst dates).length :=
    List.indexOf_lt_length.mpr ((mem_uniqueFirst _ _).mpr h2)
  have e1 := List.indexOf_get hl1
  have e2 := List.indexOf_get hl2
  apply hne
  rw [← e1, ← e2]
  have hfin : (⟨List.indexOf d1 (uniqueFirst dates), hl1⟩
      : Fin (uniqueFirst dates).length)
      = ⟨List.indexOf d2 (uniqueFirst dates), hl2⟩ := Fin.ext heq
  rw [hfin]

theorem block_disjoint (e1 e2 ncoef c : ℕ) (hne : e1 ≠ e2)
    (h1 : e1 * ncoef ≤ c ∧ c < e1 * ncoef + ncoef)
    (h2 : e2 * ncoef ≤ c ∧ c < e2 * ncoef + ncoef) : False := by
  rcases Nat.lt_or_ge e1 e2 with h | h
  · have hle : e1 * ncoef + ncoef ≤ e2 * ncoef := by
      calc e1 * ncoef + ncoef = (e1 + 1) * ncoef := by rw [Nat.succ_mul]
        _ ≤ e2 * ncoef := mul_le_mul_right' (Nat.succ_le_of_lt h) ncoef
    omega
  · have h2lt : e2 < e1 := lt_of_le_of_ne h (Ne.symm hne)
    have hle : e2 * ncoef + ncoef ≤ e1 * ncoef := by
      calc e2 * ncoef + ncoef = (e2 + 1) * ncoef := by rw [Nat.succ_mul]
        _ ≤ e1 * ncoef := mul_le_mul_right' (Nat.succ_le_of_lt h2lt) ncoef
    omega

theorem block_below (e nep ncoef c : ℕ) (he : e < nep)
    (hc : c < e * ncoef + ncoef) : c < nep * ncoef := by
  have hle : e * ncoef + ncoef ≤ nep * ncoef := by
    calc e * ncoef + ncoef = (e + 1) * ncoef := by rw [Nat.succ_mul]
      _ ≤ nep * ncoef := mul_le_mul_right' (Nat.succ_le_of_lt he) ncoef
  omega

theorem designRow_length (ifg : Ifg) (degree : String) (offset : Bool)
    (nparams : ℕ) (p : ℕ)
    (hd3 : degree = PLANAR ∨ degree = QUADRATIC ∨ degree = PART_CUBIC)
    (hnp : get_num_params degree offset = Except.ok nparams) :
    (designRow ifg degree offset p).length = nparams := by
  rcases hd3 with h | h | h <;> subst h <;> cases offset <;>
    simp +decide [get_num_params, designRow] at hnp ⊢ <;> omega

theorem fold_networkStep_length (tmp : List (List ℚ)) (ids : ℕ → ℕ)
    (ncoef oc : ℕ) (offset : Bool) (l : List (ℕ × Ifg))
    (acc : List (List ℚ)) :
    (l.foldl (networkStep tmp ids ncoef oc offset) acc).length
      = acc.length := by
  induction l generalizing acc with
  | nil => rfl
  | cons pr rest ih =>
    rw [List.foldl_cons, ih, networkStep_length]

theorem fold_networkStep_rowlen (tmp : List (List ℚ)) (ids : ℕ → ℕ)
    (ncoef oc : ℕ) (offset : Bool) (l : List (ℕ × Ifg))
    (acc : List (List ℚ)) (r : ℕ) :
    ((l.foldl (networkStep tmp ids ncoef oc offset) acc).getD r []).length
      = ((acc.getD r []).length) := by
  induction l generalizing acc with
  | nil => rfl
  | cons pr rest ih =>
    rw [List.foldl_cons, ih, networkStep_rowlen]

theorem entryAt_zeros (N W r c : ℕ) :
    entryAt (List.replicate N (List.replicate W (0 : ℚ))) r c = 0 := by
  rw [entryAt]
  by_cases hr : r < N
  · rw [getD_replicate_of_lt _ _ _ _ hr]
    by_cases hc : c < W
    · rw [getD_replicate_of_lt _ _ _ _ hc]
    · exact List.getD_eq_default _ _ (by simpa using le_of_not_lt hc)
  · have e1 : (List.replicate N (List.replicate W (0 : ℚ))).getD r []
        = ([] : List ℚ) :=
      List.getD_eq_default _ _ (by simpa using le_of_not_lt hr)
    rw [e1]
    rfl

/-- C1: for a non-empty shape-sharing collection with distinct master and
slave epochs per interferogram and a valid degree, the network design
matrix has num_cells * nifgs rows and ncoef * nepochs + (nifgs if offset)
columns, and row-block i equals the shared offset-free basis negated in the
master epoch column block and un-negated in the slave epoch column block,
with a 1 in column nepochs * ncoef + i exactly when offset is true and
zeros everywhere else. -/
theorem c1_network_design_matrix (i0 : Ifg) (rest : List Ifg)
    (degree : String) (offset : Bool) (ndm basis : List (List ℚ))
    (ncoef : ℕ)
    (hdeg : degree ∈ [PLANAR, QUADRATIC, PART_CUBIC])
    (hshape : ∀ i ∈ i0 :: rest, i.nrows = i0.nrows ∧ i.ncols = i0.ncols)
    (hms : ∀ i ∈ i0 :: rest, i.master ≠ i.slave)
    (hncoef : get_num_params degree false = Except.ok ncoef)
    (hbasis : get_design_matrix i0 degree false = Except.ok basis)
    (hndm : get_network_design_matrix (i0 :: rest) degree offset
      = Except.ok ndm) :
    ndm.length = i0.num_cells * (i0 :: rest).length ∧
    (∀ row ∈ ndm, row.length
      = ncoef * get_epoch_count (i0 :: rest)
        + (if offset then (i0 :: rest).length else 0)) ∧
    (∀ i, i < (i0 :: rest).length → ∀ p, p < i0.num_cells →
      ∀ c, c < ncoef * get_epoch_count (i0 :: rest)
          + (if offset then (i0 :: rest).length else 0) →
      entryAt ndm (i * i0.num_cells + p) c
        = (if master_slave_ids (get_all_epochs (i0 :: rest))
              ((i0 :: rest).getD i default).master * ncoef ≤ c
            ∧ c < master_slave_ids (get_all_epochs (i0 :: rest))
              ((i0 :: rest).getD i default).master * ncoef + ncoef
          then -(entryAt basis p (c - master_slave_ids
              (get_all_epochs (i0 :: rest))
              ((i0 :: rest).getD i default).master * ncoef))
          else if master_slave_ids (get_all_epochs (i0 :: rest))
              ((i0 :: rest).getD i default).slave * ncoef ≤ c
            ∧ c < master_slave_ids (get_all_epochs (i0 :: rest))
              ((i0 :: rest).getD i default).slave * ncoef + ncoef
          then entryAt basis p (c - master_slave_ids
              (get_all_epochs (i0 :: rest))
              ((i0 :: rest).getD i default).slave * ncoef)
          else if offset = true
              ∧ c = get_epoch_count (i0 :: rest) * ncoef + i
          then 1 else 0)) := by
  have hd3 : degree = PLANAR ∨ degree = QUADRATIC ∨ degree = PART_CUBIC := by
    simpa using hdeg
  have hbasis2 : basis
      = (List.range i0.num_cells).map (designRow i0 degree false) := by
    simp [get_design_matrix, hdeg] at hbasis
    exact hbasis.symm
  have hbasislen : basis.length = i0.num_cells := by rw [hbasis2]; simp
  have hbasisrows : ∀ row ∈ basis, row.length = ncoef := by
    rw [hbasis2]
    intro row hrow
    simp only [List.mem_map] at hrow
    obtain ⟨p, -, rfl⟩ := hrow
    exact designRow_length i0 degree false ncoef p hd3 hncoef
  have hndm2 : ndm
      = ((i0 :: rest).enum.foldl
          (networkStep basis
            (master_slave_ids (get_all_epochs (i0 :: rest)))
            ncoef (get_epoch_count (i0 :: rest) * ncoef) offset)
          (List.replicate (i0.num_cells * (i0 :: rest).length)
            (List.replicate
              (ncoef * get_epoch_count (i0 :: rest)
                + (if offset then (i0 :: rest).length else 0)) (0 : ℚ)))) := by
    simp [get_network_design_matrix, hdeg, hncoef, hbasis] at hndm
    exact hndm.symm
  have huni : ∀ i ∈ i0 :: rest, i.num_cells = i0.num_cells := by
    intro i hi
    rw [Ifg.num_cells, Ifg.num_cells, (hshape i hi).1, (hshape i hi).2]
  subst hndm2
  refine ⟨?_, ?_, ?_⟩
  · rw [fold_networkStep_length]
    simp
  · intro row hrow
    rw [List.mem_iff_getElem] at hrow
    obtain ⟨r, hr, rfl⟩ := hrow
    have hrlen : r < i0.num_cells * (i0 :: rest).length := by
      have h2 := hr
      rwa [fold_networkStep_length, List.length_replicate] at h2
    rw [← List.getD_eq_getElem _ ([] : List ℚ) hr, fold_networkStep_rowlen,
      getD_replicate_of_lt _ _ _ _ hrlen, List.length_replicate]
  · intro i hi p hp c hc
    have hifg_mem : (i0 :: rest).getD i default ∈ (i0 :: rest) := by
      rw [List.getD_eq_getElem _ _ hi]
      exact List.getElem_mem _
    have hmmem : ((i0 :: rest).getD i default).master
        ∈ get_all_epochs (i0 :: rest) :=
      List.mem_append_left _ (List.mem_map_of_mem _ hifg_mem)
    have hsmem : ((i0 :: rest).getD i default).slave
        ∈ get_all_epochs (i0 :: rest) :=
      List.mem_append_right _ (List.mem_map_of_mem _ hifg_mem)
    have hidsne : master_slave_ids (get_all_epochs (i0 :: rest))
          ((i0 :: rest).getD i default).master
        ≠ master_slave_ids (get_all_epochs (i0 :: rest))
          ((i0 :: rest).getD i default).slave :=
      master_slave_ids_inj _ _ _ hmmem hsmem
        (hms _ hifg_mem)
    have hmlt : master_slave_ids (get_all_epochs (i0 :: rest))
          ((i0 :: rest).getD i default).master
        < get_epoch_count (i0 :: rest) :=
      master_slave_ids_lt _ _ hmmem
    have hslt : master_slave_ids (get_all_epochs (i0 :: rest))
          ((i0 :: rest).getD i default).slave
        < get_epoch_count (i0 :: rest) :=
      master_slave_ids_lt _ _ hsmem
    have hrN : (0 + i) * i0.num_cells + p
        < i0.num_cells * (i0 :: rest).length := by
      simp only [Nat.zero_add]
      calc i * i0.num_cells + p < i * i0.num_cells + i0.num_cells := by omega
        _ = (i + 1) * i0.num_cells := by rw [Nat.succ_mul]
        _ ≤ (i0 :: rest).length * i0.num_cells :=
            mul_le_mul_right' (Nat.succ_le_of_lt hi) _
        _ = i0.num_cells * (i0 :: rest).length := Nat.mul_comm _ _
    have hfold := fold_networkStep_in basis
      (master_slave_ids (get_all_epochs (i0 :: rest))) ncoef
      (get_epoch_count (i0 :: rest) * ncoef) i0.num_cells
      (ncoef * get_epoch_count (i0 :: rest)
        + (if offset then (i0 :: rest).length else 0))
      (i0.num_cells * (i0 :: rest).length) offset (i0 :: rest) 0 i
      (List.replicate (i0.num_cells * (i0 :: rest).length)
        (List.replicate
          (ncoef * get_epoch_count (i0 :: rest)
            + (if offset then (i0 :: rest).length else 0)) (0 : ℚ)))
      p c hp hc hbasislen hbasisrows hi huni (by simp)
      (fun r hrlt => by
        rw [getD_replicate_of_lt _ _ _ _ hrlt, List.length_replicate])
      hrN
    simp only [Nat.zero_add] at hfold
    rw [show (i0 :: rest).enum = List.enumFrom 0 (i0 :: rest) from rfl]
    rw [hfold]
    set nep := get_epoch_count (i0 :: rest) with hnep
    set ifg := (i0 :: rest).getD i default with hifg
    set ids := master_slave_ids (get_all_epochs (i0 :: rest)) with hids
    by_cases hm : ids ifg.master * ncoef ≤ c
        ∧ c < ids ifg.master * ncoef + ncoef
    · have hno : ¬(offset = true ∧ c = nep * ncoef + i) := by
        rintro ⟨-, hce⟩
        have hlt := block_below _ nep ncoef c hmlt hm.2
        omega
      have hns : ¬(ids ifg.slave * ncoef ≤ c
          ∧ c < ids ifg.slave * ncoef + ncoef) :=
        fun hs => block_disjoint _ _ ncoef c (Ne.symm hidsne) hs hm
      rw [if_neg hno, if_neg hns, if_pos hm, if_pos hm]
      rfl
    · by_cases hs : ids ifg.slave * ncoef ≤ c
          ∧ c < ids ifg.slave * ncoef + ncoef
      · have hno : ¬(offset = true ∧ c = nep * ncoef + i) := by
          rintro ⟨-, hce⟩
          have hlt := block_below _ nep ncoef c hslt hs.2
          omega
        rw [if_neg hno, if_pos hs, if_neg hm, if_pos hs]
        rfl
      · by_cases ho : offset = true ∧ c = nep * ncoef + i
        · rw [if_pos ho, if_neg hm, if_neg hs, if_pos ho]
        · rw [if_neg ho, if_neg hs, if_neg hm, if_neg hm, if_neg hs,
            if_neg ho]
          exact entryAt_zeros _ _ _ _

set_option maxHeartbeats 2000000 in
/-- Closed witness for c1_network_design_matrix on two 2 by 1
interferograms sharing epoch 20, PLANAR degree with offset columns. -/
theorem c1_network_design_matrix_witness :
    ([[(0 : ℚ), 0, 0, 0, 0, 0, 1, 0],
      [0, -1, 0, 1, 0, 0, 1, 0],
      [0, 0, 0, 0, 0, 0, 0, 1],
      [0, 0, 0, -1, 0, 1, 0, 1]]).length
      = ifgW3.num_cells * ([ifgW3, ifgW4] : List Ifg).length :=
  (c1_network_design_matrix ifgW3 [ifgW4] PLANAR true
    [[0, 0, 0, 0, 0, 0, 1, 0],
     [0, -1, 0, 1, 0, 0, 1, 0],
     [0, 0, 0, 0, 0, 0, 0, 1],
     [0, 0, 0, -1, 0, 1, 0, 1]]
    [[0, 0], [0, 1]] 2
    (by decide) (by decide) (by decide) (by decide)
    (by norm_num [get_design_matrix, designRow, ifgW3, Ifg.num_cells,
      List.range_succ])
    (by
      norm_num [get_network_design_matrix, get_design_matrix, designRow,
        networkStep, writeBlock, writeOnesCol, overwriteSlice, negMat,
        ifgW3, ifgW4, Ifg.num_cells, get_epoch_count, get_all_epochs,
        uniqueFirst, master_slave_ids, get_num_params, List.range_succ,
        List.replicate, List.mapIdx_cons, List.mapIdx_nil, List.enumFrom,
        List.enum])).1

theorem dotL_eq_sum_range (xs ys : List ℚ) (h : xs.length = ys.length) :
    dotL xs ys = ∑ c ∈ Finset.range xs.length, xs.getD c 0 * ys.getD c 0 := by
  induction xs generalizing ys with
  | nil => simp [dotL]
  | cons x xs ih =>
    cases ys with
    | nil => simp at h
    | cons y ys =>
      simp only [dotL, List.zipWith_cons_cons, List.sum_cons,
        List.length_cons]
      rw [Finset.sum_range_succ']
      simp only [List.getD_cons_succ, List.getD_cons_zero]
      rw [← ih ys (by simpa using h)]
      show x * y + dotL xs ys = dotL xs ys + x * y
      ring

theorem sum_range_ite_block (W S ncoef : ℕ) (g : ℕ → ℚ)
    (hSW : S + ncoef ≤ W) :
    (∑ c ∈ Finset.range W, if S ≤ c ∧ c < S + ncoef then g c else 0)
      = ∑ j ∈ Finset.range ncoef, g (S + j) := by
  rw [← Finset.sum_filter]
  have hfil : (Finset.range W).filter (fun c => S ≤ c ∧ c < S + ncoef)
      = Finset.Ico S (S + ncoef) := by
    ext c
    simp only [Finset.mem_filter, Finset.mem_range, Finset.mem_Ico]
    omega
  rw [hfil, Finset.sum_Ico_eq_sum_range]
  simp


theorem rowblock_dot_zero (W S M oc i ncoef : ℕ) (bv w : List ℚ)
    (offset : Bool) (E : ℕ → ℚ)
    (hE : ∀ c, c < W → E c
      = if offset = true ∧ c = oc + i then 1
        else if S ≤ c ∧ c < S + ncoef then bv.getD (c - S) 0
        else if M ≤ c ∧ c < M + ncoef then -(bv.getD (c - M) 0)
        else 0)
    (hSoc : S + ncoef ≤ oc) (hMoc : M + ncoef ≤ oc) (hocW : oc ≤ W)
    (hdisj : M + ncoef ≤ S ∨ S + ncoef ≤ M)
    (hblockeq : ∀ j, j < ncoef → w.getD (S + j) 0 = w.getD (M + j) 0)
    (hoffzero : ∀ c, oc ≤ c → w.getD c 0 = 0) :
    (∑ c ∈ Finset.range W, E c * w.getD c 0) = 0 := by
  have hsplit : ∀ c ∈ Finset.range W, E c * w.getD c 0
      = ((if S ≤ c ∧ c < S + ncoef
            then bv.getD (c - S) 0 * w.getD c 0 else 0)
        + (if M ≤ c ∧ c < M + ncoef
            then -(bv.getD (c - M) 0) * w.getD c 0 else 0)) := by
    intro c hcmem
    have hc : c < W := Finset.mem_range.mp hcmem
    rw [hE c hc]
    by_cases h1 : offset = true ∧ c = oc + i
    · have hco := h1.2
      have hn2 : ¬(S ≤ c ∧ c < S + ncoef) := by omega
      have hn3 : ¬(M ≤ c ∧ c < M + ncoef) := by omega
      rw [if_pos h1, if_neg hn2, if_neg hn3, hoffzero c (by omega)]
      ring
    · by_cases h2 : S ≤ c ∧ c < S + ncoef
      · have hn3 : ¬(M ≤ c ∧ c < M + ncoef) := by omega
        rw [if_neg h1, if_pos h2, if_pos h2, if_neg hn3]
        ring
      · by_cases h3 : M ≤ c ∧ c < M + ncoef
        · rw [if_neg h1, if_neg h2, if_pos h3, if_neg h2, if_pos h3]
          ring
        · rw [if_neg h1, if_neg h2, if_neg h3, if_neg h2, if_neg h3]
          ring
  rw [Finset.sum_congr rfl hsplit, Finset.sum_add_distrib,
    sum_range_ite_block W S ncoef _ (by omega),
    sum_range_ite_block W M ncoef _ (by omega),
    ← Finset.sum_add_distrib]
  apply Finset.sum_eq_zero
  intro j hj
  have hje := hblockeq j (Finset.mem_range.mp hj)
  simp only [Nat.add_sub_cancel_left]
  rw [hje]
  ring

/-- C6: a row of row-block k of the network design matrix, for an
interferogram whose master and slave epochs are distinct, multiplied by a
coefficient vector whose per-epoch blocks are all equal to one another and
whose offset entries are zero, gives zero: equal master and slave
coefficients imply a zero modelled correction for that pair. -/
theorem c6_equal_coefficients_zero (i0 : Ifg) (rest : List Ifg)
    (degree : String) (offset : Bool) (ndm basis : List (List ℚ))
    (ncoef : ℕ) (w : List ℚ) (k p : ℕ)
    (hdeg : degree ∈ [PLANAR, QUADRATIC, PART_CUBIC])
    (hshape : ∀ i ∈ i0 :: rest, i.nrows = i0.nrows ∧ i.ncols = i0.ncols)
    (hmsk : ((i0 :: rest).getD k default).master
      ≠ ((i0 :: rest).getD k default).slave)
    (hncoef : get_num_params degree false = Except.ok ncoef)
    (hbasis : get_design_matrix i0 degree false = Except.ok basis)
    (hndm : get_network_design_matrix (i0 :: rest) degree offset
      = Except.ok ndm)
    (hk : k < (i0 :: rest).length) (hp : p < i0.num_cells)
    (hw : w.length = ncoef * get_epoch_count (i0 :: rest)
      + (if offset then (i0 :: rest).length else 0))
    (hblocks : ∀ e1 e2, e1 < get_epoch_count (i0 :: rest) →
      e2 < get_epoch_count (i0 :: rest) → ∀ j, j < ncoef →
      w.getD (e1 * ncoef + j) 0 = w.getD (e2 * ncoef + j) 0)
    (hoff : ∀ c, get_epoch_count (i0 :: rest) * ncoef ≤ c →
      w.getD c 0 = 0) :
    dotL (ndm.getD (k * i0.num_cells + p) []) w = 0 := by
  have hd3 : degree = PLANAR ∨ degree = QUADRATIC ∨ degree = PART_CUBIC := by
    simpa using hdeg
  have hbasis2 : basis
      = (List.range i0.num_cells).map (designRow i0 degree false) := by
    simp [get_design_matrix, hdeg] at hbasis
    exact hbasis.symm
  have hbasislen : basis.length = i0.num_cells := by rw [hbasis2]; simp
  have hbasisrows : ∀ row ∈ basis, row.length = ncoef := by
    rw [hbasis2]
    intro row hrow
    simp only [List.mem_map] at hrow
    obtain ⟨q, -, rfl⟩ := hrow
    exact designRow_length i0 degree false ncoef q hd3 hncoef
  have hndm2 : ndm
      = ((i0 :: rest).enum.foldl
          (networkStep basis
            (master_slave_ids (get_all_epochs (i0 :: rest)))
            ncoef (get_epoch_count (i0 :: rest) * ncoef) offset)
          (List.replicate (i0.num_cells * (i0 :: rest).length)
            (List.replicate
              (ncoef * get_epoch_count (i0 :: rest)
                + (if offset then (i0 :: rest).length else 0)) (0 : ℚ)))) := by
    simp [get_network_design_matrix, hdeg, hncoef, hbasis] at hndm
    exact hndm.symm
  have huni : ∀ i ∈ i0 :: rest, i.num_cells = i0.num_cells := by
    intro i hi
    rw [Ifg.num_cells, Ifg.num_cells, (hshape i hi).1, (hshape i hi).2]
  have hifg_mem : (i0 :: rest).getD k default ∈ (i0 :: rest) := by
    rw [List.getD_eq_getElem _ _ hk]
    exact List.getElem_mem _
  have hmmem : ((i0 :: rest).getD k default).master
      ∈ get_all_epochs (i0 :: rest) :=
    List.mem_append_left _ (List.mem_map_of_mem _ hifg_mem)
  have hsmem : ((i0 :: rest).getD k default).slave
      ∈ get_all_epochs (i0 :: rest) :=
    List.mem_append_right _ (List.mem_map_of_mem _ hifg_mem)
  have hidsne : master_slave_ids (get_all_epochs (i0 :: rest))
        ((i0 :: rest).getD k default).master
      ≠ master_slave_ids (get_all_epochs (i0 :: rest))
        ((i0 :: rest).getD k default).slave :=
    master_slave_ids_inj _ _ _ hmmem hsmem hmsk
  have hmlt : master_slave_ids (get_all_epochs (i0 :: rest))
        ((i0 :: rest).getD k default).master
      < get_epoch_count (i0 :: rest) :=
    master_slave_ids_lt _ _ hmmem
  have hslt : master_slave_ids (get_all_epochs (i0 :: rest))
        ((i0 :: rest).getD k default).slave
      < get_epoch_count (i0 :: rest) :=
    master_slave_ids_lt _ _ hsmem
  subst hndm2
  rw [show (i0 :: rest).enum = List.enumFrom 0 (i0 :: rest) from rfl]
  have hrN : (0 + k) * i0.num_cells + p
      < i0.num_cells * (i0 :: rest).length := by
    simp only [Nat.zero_add]
    calc k * i0.num_cells + p < k * i0.num_cells + i0.num_cells := by omega
      _ = (k + 1) * i0.num_cells := by rw [Nat.succ_mul]
      _ ≤ (i0 :: rest).length * i0.num_cells :=
          mul_le_mul_right' (Nat.succ_le_of_lt hk) _
      _ = i0.num_cells * (i0 :: rest).length := Nat.mul_comm _ _
  have hrN2 : k * i0.num_cells + p
      < i0.num_cells * (i0 :: rest).length := by simpa using hrN
  have hrowlen : (((List.enumFrom 0 (i0 :: rest)).foldl
      (networkStep basis
        (master_slave_ids (get_all_epochs (i0 :: rest)))
        ncoef (get_epoch_count (i0 :: rest) * ncoef) offset)
      (List.replicate (i0.num_cells * (i0 :: rest).length)
        (List.replicate
          (ncoef * get_epoch_count (i0 :: rest)
            + (if offset then (i0 :: rest).length else 0)) (0 : ℚ)))).getD
        (k * i0.num_cells + p) []).length
      = ncoef * get_epoch_count (i0 :: rest)
        + (if offset then (i0 :: rest).length else 0) := by
    rw [fold_networkStep_rowlen, getD_replicate_of_lt _ _ _ _ hrN2,
      List.length_replicate]
  have hfold : ∀ c, c < ncoef * get_epoch_count (i0 :: rest)
      + (if offset then (i0 :: rest).length else 0) →
      (((List.enumFrom 0 (i0 :: rest)).foldl
          (networkStep basis
            (master_slave_ids (get_all_epochs (i0 :: rest)))
            ncoef (get_epoch_count (i0 :: rest) * ncoef) offset)
          (List.replicate (i0.num_cells * (i0 :: rest).length)
            (List.replicate
              (ncoef * get_epoch_count (i0 :: rest)
                + (if offset then (i0 :: rest).length else 0)) (0 : ℚ)))).getD
            (k * i0.num_cells + p) []).getD c 0
        = if offset = true
            ∧ c = get_epoch_count (i0 :: rest) * ncoef + k then 1
          else if master_slave_ids (get_all_epochs (i0 :: rest))
              ((i0 :: rest).getD k default).slave * ncoef ≤ c
            ∧ c < master_slave_ids (get_all_epochs (i0 :: rest))
              ((i0 :: rest).getD k default).slave * ncoef + ncoef
          then (basis.getD p []).getD
            (c - master_slave_ids (get_all_epochs (i0 :: rest))
              ((i0 :: rest).getD k default).slave * ncoef) 0
          else if master_slave_ids (get_all_epochs (i0 :: rest))
              ((i0 :: rest).getD k default).master * ncoef ≤ c
            ∧ c < master_slave_ids (get_all_epochs (i0 :: rest))
              ((i0 :: rest).getD k default).master * ncoef + ncoef
          then -((basis.getD p []).getD
            (c - master_slave_ids (get_all_epochs (i0 :: rest))
              ((i0 :: rest).getD k default).master * ncoef) 0)
          else 0 := by
    intro c hc
    have h0 := fold_networkStep_in basis
      (master_slave_ids (get_all_epochs (i0 :: rest))) ncoef
      (get_epoch_count (i0 :: rest) * ncoef) i0.num_cells
      (ncoef * get_epoch_count (i0 :: rest)
        + (if offset then (i0 :: rest).length else 0))
      (i0.num_cells * (i0 :: rest).length) offset (i0 :: rest) 0 k
      (List.replicate (i0.num_cells * (i0 :: rest).length)
        (List.replicate
          (ncoef * get_epoch_count (i0 :: rest)
            + (if offset then (i0 :: rest).length else 0)) (0 : ℚ)))
      p c hp hc hbasislen hbasisrows hk huni (by simp)
      (fun r hrlt => by
        rw [getD_replicate_of_lt _ _ _ _ hrlt, List.length_replicate])
      hrN
    simp only [Nat.zero_add] at h0
    rw [entryAt_zeros] at h0
    simp only [entryAt] at h0
    exact h0
  rw [dotL_eq_sum_range _ _ (by rw [hrowlen, hw]), hrowlen]
  have hubs : master_slave_ids (get_all_epochs (i0 :: rest))
      ((i0 :: rest).getD k default).slave * ncoef + ncoef
      ≤ get_epoch_count (i0 :: rest) * ncoef := by
    calc master_slave_ids (get_all_epochs (i0 :: rest))
          ((i0 :: rest).getD k default).slave * ncoef + ncoef
        = (master_slave_ids (get_all_epochs (i0 :: rest))
          ((i0 :: rest).getD k default).slave + 1) * ncoef := by
          rw [Nat.succ_mul]
      _ ≤ get_epoch_count (i0 :: rest) * ncoef :=
          mul_le_mul_right' (Nat.succ_le_of_lt hslt) ncoef
  have hubm : master_slave_ids (get_all_epochs (i0 :: rest))
      ((i0 :: rest).getD k default).master * ncoef + ncoef
      ≤ get_epoch_count (i0 :: rest) * ncoef := by
    calc master_slave_ids (get_all_epochs (i0 :: rest))
          ((i0 :: rest).getD k default).master * ncoef + ncoef
        = (master_slave_ids (get_all_epochs (i0 :: rest))
          ((i0 :: rest).getD k default).master + 1) * ncoef := by
          rw [Nat.succ_mul]
      _ ≤ get_epoch_count (i0 :: rest) * ncoef :=
          mul_le_mul_right' (Nat.succ_le_of_lt hmlt) ncoef
  have hocW : get_epoch_count (i0 :: rest) * ncoef
      ≤ ncoef * get_epoch_count (i0 :: rest)
        + (if offset then (i0 :: rest).length else 0) := by
    rw [Nat.mul_comm]
    omega
  have hdisj : master_slave_ids (get_all_epochs (i0 :: rest))
        ((i0 :: rest).getD k default).master * ncoef + ncoef
      ≤ master_slave_ids (get_all_epochs (i0 :: rest))
        ((i0 :: rest).getD k default).slave * ncoef
      ∨ master_slave_ids (get_all_epochs (i0 :: rest))
        ((i0 :: rest).getD k default).slave * ncoef + ncoef
      ≤ master_slave_ids (get_all_epochs (i0 :: rest))
        ((i0 :: rest).getD k default).master * ncoef := by
    rcases Nat.lt_or_ge (master_slave_ids (get_all_epochs (i0 :: rest))
        ((i0 :: rest).getD k default).master)
        (master_slave_ids (get_all_epochs (i0 :: rest))
        ((i0 :: rest).getD k default).slave) with h | h
    · left
      calc master_slave_ids (get_all_epochs (i0 :: rest))
            ((i0 :: rest).getD k default).master * ncoef + ncoef
          = (master_slave_ids (get_all_epochs (i0 :: rest))
            ((i0 :: rest).getD k default).master + 1) * ncoef := by
            rw [Nat.succ_mul]
        _ ≤ _ := mul_le_mul_right' (Nat.succ_le_of_lt h) ncoef
    · have hlt : master_slave_ids (get_all_epochs (i0 :: rest))
            ((i0 :: rest).getD k default).slave
          < master_slave_ids (get_all_epochs (i0 :: rest))
            ((i0 :: rest).getD k default).master :=
        lt_of_le_of_ne h (Ne.symm hidsne)
      right
      calc master_slave_ids (get_all_epochs (i0 :: rest))
            ((i0 :: rest).getD k default).slave * ncoef + ncoef
          = (master_slave_ids (get_all_epochs (i0 :: rest))
            ((i0 :: rest).getD k default).slave + 1) * ncoef := by
            rw [Nat.succ_mul]
        _ ≤ _ := mul_le_mul_right' (Nat.succ_le_of_lt hlt) ncoef
  exact rowblock_dot_zero _ _ _ _ k ncoef (basis.getD p []) w offset _
    hfold hubs hubm hocW hdisj
    (fun j hj => hblocks _ _ hslt hmlt j hj)
    hoff

set_option maxHeartbeats 2000000 in
/-- Closed witness for c6_equal_coefficients_zero: row 3 of the concrete
network design matrix of the two 2 by 1 interferograms, against a
coefficient vector with three equal epoch blocks and zero offset entries. -/
theorem c6_equal_coefficients_zero_witness :
    dotL ([(0 : ℚ), 0, 0, -1, 0, 1, 0, 1]) [5, 7, 5, 7, 5, 7, 0, 0] = 0 :=
  c6_equal_coefficients_zero ifgW3 [ifgW4] PLANAR true
    [[0, 0, 0, 0, 0, 0, 1, 0],
     [0, -1, 0, 1, 0, 0, 1, 0],
     [0, 0, 0, 0, 0, 0, 0, 1],
     [0, 0, 0, -1, 0, 1, 0, 1]]
    [[0, 0], [0, 1]] 2 [5, 7, 5, 7, 5, 7, 0, 0] 1 1
    (by decide) (by decide) (by decide) (by decide)
    (by norm_num [get_design_matrix, designRow, ifgW3, Ifg.num_cells,
      List.range_succ])
    (by
      norm_num [get_network_design_matrix, get_design_matrix, designRow,
        networkStep, writeBlock, writeOnesCol, overwriteSlice, negMat,
        ifgW3, ifgW4, Ifg.num_cells, get_epoch_count, get_all_epochs,
        uniqueFirst, master_slave_ids, get_num_params, List.range_succ,
        List.replicate, List.mapIdx_cons, List.mapIdx_nil, List.enumFrom,
        List.enum])
    (by decide) (by decide) (by decide)
    (by
      intro e1 e2 h1 h2 j hj
      have h1b : e1 < 3 := h1
      have h2b : e2 < 3 := h2
      have hjb : j < 2 := hj
      interval_cases e1 <;> interval_cases e2 <;> interval_cases j <;> rfl)
    (by
      intro c hc
      have hcb : 6 ≤ c := hc
      rcases Nat.lt_or_ge c 8 with h | h
      · interval_cases c <;> rfl
      · exact List.getD_eq_default _ _ (by simpa using h))

/-- C3: every interferogram corrected by the network method has subtracted
from its phase exactly orb = basis . (coef[slave epoch] - coef[master
epoch]) — basis the offset-free full-resolution design matrix of the first
interferogram and coef the solved per-epoch blocks of width
get_num_params(degree, offset=false) taken from the model solved on the
NaN-masked source system — plus, when offset is requested, the scalar
median of (phase - orb) over its valid pixels, with NaN propagation. -/
theorem c3_network_correction_subtraction
    (netSolver : List (List ℚ) → List ℚ → List ℚ)
    (i0 : Ifg) (rest : List Ifg) (degree : String) (offset : Bool)
    (m_ifgs : Option (List Ifg)) (src : List Ifg)
    (ndm basis : List (List ℚ)) (ncoef : ℕ) (out : List Ifg)
    (hsrc : src = (match m_ifgs with | none => i0 :: rest | some m => m))
    (hncoef : get_num_params degree false = Except.ok ncoef)
    (hbasis : get_design_matrix i0 degree false = Except.ok basis)
    (hndm : get_network_design_matrix src degree offset = Except.ok ndm)
    (hout : _network_correction netSolver (i0 :: rest) degree offset m_ifgs
      = Except.ok out) :
    out.length = (i0 :: rest).length ∧
    (∀ k, k < (i0 :: rest).length →
      out.getD k default
        = (let ifg := (i0 :: rest).getD k default
           let vphase := (src.map Ifg.phase_data).flatten
           let model := netSolver (maskRows vphase ndm)
             (vphase.filterMap id)
           let ids := master_slave_ids (get_all_epochs (i0 :: rest))
           let orb := matVec basis (List.zipWith (fun a b => a - b)
             ((model.drop (ids ifg.slave * ncoef)).take ncoef)
             ((model.drop (ids ifg.master * ncoef)).take ncoef))
           if offset then
             let med := medianQ
               ((phaseSub ifg.phase_data orb).filterMap id)
             let newphase := List.zipWith
               (fun ph o => optSub ph (Option.map (fun mv => o + mv) med))
               ifg.phase_data orb
             { ifg with phase_data := newphase }
           else { ifg with phase_data := phaseSub ifg.phase_data orb })) := by
  subst hsrc
  simp only [_network_correction, exBind_eq_ok, exPure,
    Except.ok.injEq] at hout
  obtain ⟨dm, hdm, nc2, hnc2, dm2, hdm2, hmap⟩ := hout
  have hdmeq : ndm = dm := Except.ok.inj (hndm.symm.trans hdm)
  subst hdmeq
  have hnceq : ncoef = nc2 := Except.ok.inj (hncoef.symm.trans hnc2)
  subst hnceq
  have hbeq : basis = dm2 := Except.ok.inj (hbasis.symm.trans hdm2)
  subst hbeq
  subst hmap
  refine ⟨by simp, ?_⟩
  intro k hk
  rw [getD_map_of_lt _ _ _ hk]
  have hifg_mem : (i0 :: rest).getD k default ∈ (i0 :: rest) := by
    rw [List.getD_eq_getElem _ _ hk]
    exact List.getElem_mem _
  have hmlt : master_slave_ids (get_all_epochs (i0 :: rest))
        ((i0 :: rest).getD k default).master
      < get_epoch_count (i0 :: rest) :=
    master_slave_ids_lt _ _
      (List.mem_append_left _ (List.mem_map_of_mem _ hifg_mem))
  have hslt : master_slave_ids (get_all_epochs (i0 :: rest))
        ((i0 :: rest).getD k default).slave
      < get_epoch_count (i0 :: rest) :=
    master_slave_ids_lt _ _
      (List.mem_append_right _ (List.mem_map_of_mem _ hifg_mem))
  cases offset
  · simp only [Bool.false_eq_true, if_false,
      getD_map_range _ _ _ _ hslt, getD_map_range _ _ _ _ hmlt]
    rfl
  · simp only [if_true,
      getD_map_range _ _ _ _ hslt, getD_map_range _ _ _ _ hmlt]
    rfl

set_option maxHeartbeats 1000000 in
/-- Witness for C3: on the two-pixel network ifgW3/ifgW4 with the constant
solver returning [1,1,2,1,2,3], the first corrected interferogram equals
its phase minus basis . (coef[slave] - coef[master]). -/
theorem c3_network_correction_subtraction_witness :
    ([ifgW3, ifgW4] : List Ifg).getD 0 default
      = (let ifg := ([ifgW3, ifgW4] : List Ifg).getD 0 default
         let vphase :=
           (([ifgW3, ifgW4] : List Ifg).map Ifg.phase_data).flatten
         let model := (fun _ _ => [(1 : ℚ), 1, 2, 1, 2, 3])
           (maskRows vphase
             [[(0 : ℚ), 0, 0, 0, 0, 0], [0, -1, 0, 1, 0, 0],
              [0, 0, 0, 0, 0, 0], [0, 0, 0, -1, 0, 1]])
           (vphase.filterMap id)
         let ids := master_slave_ids (get_all_epochs [ifgW3, ifgW4])
         let orb := matVec [[(0 : ℚ), 0], [0, 1]]
           (List.zipWith (fun a b => a - b)
             ((model.drop (ids ifg.slave * 2)).take 2)
             ((model.drop (ids ifg.master * 2)).take 2))
         if (false : Bool) then
           let med := medianQ ((phaseSub ifg.phase_data orb).filterMap id)
           let newphase := List.zipWith
             (fun ph o => optSub ph (Option.map (fun mv => o + mv) med))
             ifg.phase_data orb
           { ifg with phase_data := newphase }
         else { ifg with phase_data := phaseSub ifg.phase_data orb }) :=
  (c3_network_correction_subtraction (fun _ _ => [(1 : ℚ), 1, 2, 1, 2, 3])
    ifgW3 [ifgW4] PLANAR false none [ifgW3, ifgW4]
    [[(0 : ℚ), 0, 0, 0, 0, 0], [0, -1, 0, 1, 0, 0],
     [0, 0, 0, 0, 0, 0], [0, 0, 0, -1, 0, 1]]
    [[(0 : ℚ), 0], [0, 1]] 2 [ifgW3, ifgW4]
    rfl
    (by decide)
    (by norm_num [get_design_matrix, designRow, ifgW3, Ifg.num_cells,
      List.range_succ])
    (by norm_num [get_network_design_matrix, get_design_matrix, designRow,
      networkStep, writeBlock, writeOnesCol, overwriteSlice, negMat,
      ifgW3, ifgW4, Ifg.num_cells, get_epoch_count, get_all_epochs,
      uniqueFirst, master_slave_ids, get_num_params, List.range_succ,
      List.replicate, List.mapIdx_cons, List.mapIdx_nil, List.enumFrom,
      List.enum])
    (by norm_num [_network_correction, get_network_design_matrix,
      get_design_matrix, designRow, networkStep, writeBlock, writeOnesCol,
      overwriteSlice, negMat, maskRows, phaseSub, optSub, matVec, dotL,
      ifgW3, ifgW4, Ifg.num_cells, get_epoch_count, get_all_epochs,
      uniqueFirst, master_slave_ids, get_num_params, List.range_succ,
      List.replicate, List.mapIdx_cons, List.mapIdx_nil, List.enumFrom,
      List.enum])).2 0 (by decide)
